import Mathlib

/-!
# Verification of the Whale-Wallet policy engine

Shallow embedding of the repository's `app/policy_engine` package
(`executor.py`, `evaluator.py`, `rules/base.py`, `rules/velocity.py`,
`rules/whitelist.py`, `rules/timelock.py`) together with proofs about it.

Modelling conventions:
* Python `Decimal` amounts are embedded as `ℚ` (exact arithmetic); the
  "no limit" default `Decimal('Infinity')` is embedded as `none` in an
  `Option ℚ` limit, with the comparison `v > limit` false for `none`.
* Python `datetime` values converted with `astimezone(ZoneInfo(tz))` are
  embedded as an abstract `DateTime` carrying, for every timezone name,
  the (hour, weekday) pair the library would produce (`none` when
  `ZoneInfo` raises, in which case the code falls back to the
  unconverted value, `DateTime.fallback`).
* A rule's `evaluate` may raise; this is embedded as
  `PolicyContext → Option PolicyDecision`, `none` meaning an exception.
* Python string formatting `f"...{x:,.2f}..."` is embedded by plain
  concatenation with `fmtUsd`/`toString` rendering of the value; the
  exact digit rendering is abstracted, the value formatted is not.
* `list(set(xs))` deduplication has unspecified order in Python (string
  hashing is randomized), so it is embedded as `List.dedup`; theorems
  about deduplicated fields are stated up to membership and `Nodup`.
-/

namespace WhaleWallet

/-- Final policy decision types (`DecisionType` in `executor.py`). -/
inductive DecisionType where
  | ALLOW
  | BLOCK
  | DELAY
  | REQUIRE_2FA
  | WARN
deriving DecidableEq, Repr, Fintype

/-- Restrictiveness rank of a decision, per the spec's total order
ALLOW < WARN < REQUIRE_2FA < DELAY < BLOCK. -/
def DecisionType.restr : DecisionType → Nat
  | .ALLOW => 0
  | .WARN => 1
  | .REQUIRE_2FA => 2
  | .DELAY => 3
  | .BLOCK => 4

/-- Outcome of one rule (`PolicyDecision` in `rules/base.py`). -/
structure PolicyDecision where
  allowed : Bool := true
  require_2fa : Bool := false
  delay_seconds : Option Nat := none
  warnings : List String := []
  required_actions : List String := []
  reason : String := ""
deriving DecidableEq, Repr

/-- Factory `PolicyDecision.allow` (`rules/base.py`). -/
def PolicyDecision.allow (warnings : List String := []) : PolicyDecision :=
  { allowed := true, warnings := warnings }

/-- Factory `PolicyDecision.block` (`rules/base.py`). -/
def PolicyDecision.block (reason : String) : PolicyDecision :=
  { allowed := false, reason := reason }

/-- Factory `PolicyDecision.delay` (`rules/base.py`). -/
def PolicyDecision.delay (seconds : Nat) (reason : String) : PolicyDecision :=
  { allowed := true, delay_seconds := some seconds, reason := reason }

/-- Factory `PolicyDecision.require_verification` (`rules/base.py`). -/
def PolicyDecision.require_verification (action : String) : PolicyDecision :=
  { allowed := true, require_2fa := true, required_actions := [action] }

/-- Abstract embedding of a Python `datetime`: for each timezone name the
(hour, weekday) pair after `astimezone` (`none` when `ZoneInfo(tz)` raises),
plus the (hour, weekday) of the unconverted value used as fallback.
Weekdays follow Python: 0 = Monday … 6 = Sunday. -/
structure DateTime where
  byZone : String → Option (Int × Int)
  fallback : Int × Int

/-- Input of the policy engine (`TransactionContext` in `executor.py`). -/
structure TransactionContext where
  chain : String
  to_address : String
  value_native : ℚ
  value_usd : ℚ
  data : Option (List Nat) := none
  user_id : String := ""
  user_tier : String := "orca"
  daily_outflow_usd : ℚ := 0
  is_new_address : Bool := true
  address_in_whitelist : Bool := false
  current_time : DateTime
  user_timezone : String := "UTC"
  duress_mode_active : Bool := false
  biometric_verified : Bool := false
  is_contract_call : Bool := false
  contract_verified : Bool := false
  function_name : Option String := none

/-- Context passed to rules (`PolicyContext` in `rules/base.py`). -/
structure PolicyContext where
  transaction : TransactionContext
  user_tier : String
  current_time : DateTime
  recent_transactions : List String := []
  whitelist : List String := []

/-- Final output (`ExecutionResult` in `executor.py`, without `evaluation_time_ms`,
which is wall-clock observability data outside the decision logic). -/
structure ExecutionResult where
  decision : DecisionType
  blocking_rule : Option String := none
  delay_seconds : Option Nat := none
  warnings : List String := []
  required_actions : List String := []
  rules_evaluated : List String := []
deriving DecidableEq, Repr

/-- Constructing an `ExecutionResult` runs `__post_init__`: a `DELAY`
decision with a falsy (`None` or `0`) `delay_seconds` gets the default
86400. -/
def mkExecutionResult (decision : DecisionType) (blocking_rule : Option String)
    (delay_seconds : Option Nat) (warnings required_actions rules_evaluated : List String) :
    ExecutionResult :=
  let ds := if decision = .DELAY ∧ (delay_seconds = none ∨ delay_seconds = some 0)
    then some 86400 else delay_seconds
  { decision := decision, blocking_rule := blocking_rule, delay_seconds := ds,
    warnings := warnings, required_actions := required_actions,
    rules_evaluated := rules_evaluated }

/-- A policy rule as the executor sees it: a name, a priority, and an
`evaluate` that may raise (`none`). -/
structure Rule where
  name : String
  priority : Int
  evaluate : PolicyContext → Option PolicyDecision

/-- The `PolicyContext` the executor builds for each rule
(`executor.py`, `execute`). -/
def mkPolicyContext (tx : TransactionContext) : PolicyContext :=
  { transaction := tx, user_tier := tx.user_tier, current_time := tx.current_time }

/-! ## Aggregation (`PolicyExecutor._aggregate_decisions`) -/

/-- Truthiness of `decision.delay_seconds` in Python
(`elif decision.delay_seconds:`): not `None` and not `0`. -/
def posDelay : Option Nat → Bool
  | some n => n != 0
  | none => false

/-- Mutable locals of `_aggregate_decisions`. -/
structure AggState where
  final_decision : DecisionType
  blocking_rule : Option String
  delay_seconds : Option Nat
  all_warnings : List String
  all_actions : List String
  rules_evaluated : List String

/-- One iteration of the `for rule, decision in decisions` loop of
`_aggregate_decisions`. -/
def aggStep (st : AggState) (rd : Rule × PolicyDecision) : AggState :=
  let rule := rd.1
  let decision := rd.2
  let st : AggState :=
    { st with rules_evaluated := st.rules_evaluated ++ [rule.name],
              all_warnings := st.all_warnings ++ decision.warnings,
              all_actions := st.all_actions ++ decision.required_actions }
  if decision.allowed = false then
    if st.final_decision ≠ .BLOCK then
      { st with final_decision := .BLOCK, blocking_rule := some rule.name }
    else st
  else if posDelay decision.delay_seconds then
    if st.final_decision ≠ .BLOCK then
      let st := { st with final_decision := .DELAY }
      if st.delay_seconds = none ∨ st.delay_seconds.getD 0 < decision.delay_seconds.getD 0 then
        { st with delay_seconds := decision.delay_seconds,
                  blocking_rule := some rule.name }
      else st
    else st
  else if decision.require_2fa then
    if st.final_decision ≠ .BLOCK ∧ st.final_decision ≠ .DELAY then
      { st with final_decision := .REQUIRE_2FA,
                all_actions := st.all_actions ++ ["2fa_required"] }
    else st
  else if decision.warnings ≠ [] then
    if st.final_decision = .ALLOW then
      { st with final_decision := .WARN }
    else st
  else st

def aggInit : AggState :=
  { final_decision := .ALLOW, blocking_rule := none, delay_seconds := none,
    all_warnings := [], all_actions := [], rules_evaluated := [] }

def aggLoop (st : AggState) : List (Rule × PolicyDecision) → AggState
  | [] => st
  | rd :: rest => aggLoop (aggStep st rd) rest

/-- Embeds `PolicyExecutor._aggregate_decisions`. -/
def aggregate_decisions (decisions : List (Rule × PolicyDecision)) : ExecutionResult :=
  let st := aggLoop aggInit decisions
  mkExecutionResult st.final_decision st.blocking_rule st.delay_seconds
    st.all_warnings.dedup st.all_actions.dedup st.rules_evaluated

/-! ## Execution (`PolicyExecutor.execute`) -/

/-- Outcome of the rule-evaluation loop: either every rule returned a
decision, or some rule raised (the names collected so far are kept). -/
inductive RunOutcome where
  | ok (decisions : List (Rule × PolicyDecision))
  | errorAt (evaluatedNames : List String) (failing : Rule)

/-- The `for rule in self.rules` loop of `execute`, with the fail-closed
`except` branch. -/
def runRules (ctx : PolicyContext) : List Rule → RunOutcome
  | [] => .ok []
  | r :: rest =>
    match r.evaluate ctx with
    | none => .errorAt [] r
    | some d =>
      match runRules ctx rest with
      | .ok ds => .ok ((r, d) :: ds)
      | .errorAt ns f => .errorAt (r.name :: ns) f

/-- Embeds `PolicyExecutor.execute`. -/
def execute (rules : List Rule) (tx : TransactionContext) : ExecutionResult :=
  if tx.duress_mode_active then
    mkExecutionResult .ALLOW none none ["DURESS_MODE_ACTIVE"] [] ["duress_intercept"]
  else
    match runRules (mkPolicyContext tx) rules with
    | .errorAt ns f =>
      mkExecutionResult .BLOCK (some (f.name ++ " (evaluation error)")) none [] []
        (ns ++ [f.name])
    | .ok ds => aggregate_decisions ds

/-! ## Rule loading (`PolicyExecutor.load_rules_from_config`) -/

/-- One policy configuration record (`load_rules_from_config` docstring).
`rule_type` and `name` are `Option` because the Python dict may lack the
keys (`policy.get`); the `name` default is the `rule_type` string. -/
structure PolicyRecord (Cfg : Type) where
  rule_type : Option String
  name : Option String := none
  config : Cfg
  priority : Int := 0
  is_active : Bool := true

/-- The body of the `for policy in policies` loop: skip inactive records,
skip unregistered rule types, otherwise instantiate the registered class
with the record's name (defaulting to the rule type), config and priority. -/
def instantiateRecord {Cfg : Type} (registry : String → Option (String → Cfg → Int → Rule))
    (p : PolicyRecord Cfg) : Option Rule :=
  if p.is_active = false then none
  else
    match p.rule_type with
    | none => none
    | some rt =>
      match registry rt with
      | none => none
      | some cls => some (cls (p.name.getD rt) p.config p.priority)

/-- Embeds `PolicyExecutor.load_rules_from_config`: instantiate the recognized
active records, then stable-sort by priority, highest first
(`self.rules.sort(key=lambda r: r.priority, reverse=True)`). -/
def load_rules_from_config {Cfg : Type}
    (registry : String → Option (String → Cfg → Int → Rule))
    (policies : List (PolicyRecord Cfg)) : List Rule :=
  (policies.filterMap (instantiateRecord registry)).mergeSort
    (fun a b => decide (b.priority ≤ a.priority))

/-! ## VelocityRule (`rules/velocity.py`) -/

/-- Rendering of a USD `Decimal` amount; abstracts Python's
`f"${x:,.2f}"` digits-and-commas formatting (the value rendered is the
one the source passes to the format). -/
def fmtUsd (q : ℚ) : String := "$" ++ toString q

/-- Rendering of an optional USD limit; `none` is `Decimal('Infinity')`. -/
def fmtLimit : Option ℚ → String
  | some l => fmtUsd l
  | none => "$Infinity"

/-- Comparison `value > limit` where an absent limit is `Decimal('Infinity')`. -/
def exceedsLimit (v : ℚ) : Option ℚ → Bool
  | some l => decide (l < v)
  | none => false

/-- Typed view of the `VelocityRule` config dict; absent keys are `none`. -/
structure VelocityConfig where
  max_daily_usd : Option ℚ := none
  max_per_tx_usd : Option ℚ := none
  require_2fa_above_usd : Option ℚ := none
  delay_hours_above_usd : Option ℚ := none
  delay_hours : Option Nat := none

/-- The trailing 2FA check of `VelocityRule.evaluate`
(`if require_2fa_above is not None: ...`). -/
def velocity_2fa_check (cfg : VelocityConfig) (tx : TransactionContext) : PolicyDecision :=
  match cfg.require_2fa_above_usd with
  | some thr =>
    if thr < tx.value_usd then PolicyDecision.require_verification "2fa_required"
    else PolicyDecision.allow []
  | none => PolicyDecision.allow []

/-- Embeds `VelocityRule.evaluate`. -/
def velocity_evaluate (cfg : VelocityConfig) (ctx : PolicyContext) : PolicyDecision :=
  let tx := ctx.transaction
  if exceedsLimit tx.value_usd cfg.max_per_tx_usd then
    PolicyDecision.block ("Transaction amount " ++ fmtUsd tx.value_usd ++
      " exceeds per-transaction limit of " ++ fmtLimit cfg.max_per_tx_usd)
  else if exceedsLimit (tx.daily_outflow_usd + tx.value_usd) cfg.max_daily_usd then
    PolicyDecision.block ("Transaction would exceed daily limit. Remaining today: " ++
      fmtUsd (max (cfg.max_daily_usd.getD 0 - tx.daily_outflow_usd) 0))
  else
    match cfg.delay_hours_above_usd with
    | some thr =>
      if thr < tx.value_usd then
        let delay_hours := cfg.delay_hours.getD 24
        PolicyDecision.delay (delay_hours * 3600)
          ("Transactions above " ++ fmtUsd thr ++ " require a " ++
            toString delay_hours ++ "-hour delay")
      else velocity_2fa_check cfg tx
    | none => velocity_2fa_check cfg tx

/-! ## WhitelistRule (`rules/whitelist.py`) -/

/-- Typed view of the `WhitelistRule` config dict. -/
structure WhitelistConfig where
  mode : Option String := none
  require_2fa_for_new : Bool := false
  quarantine_hours_for_new : Option Nat := none

/-- The `require_2fa_for_new` check and plain-warn fallthrough of the
warn-mode branch of `WhitelistRule.evaluate`. -/
def whitelist_2fa_check (cfg : WhitelistConfig) (warnings : List String) : PolicyDecision :=
  if cfg.require_2fa_for_new then
    { allowed := true, require_2fa := true, warnings := warnings,
      required_actions := ["2fa_required"], reason := "2FA required for new address" }
  else PolicyDecision.allow warnings

/-- Embeds `WhitelistRule.evaluate`. -/
def whitelist_evaluate (cfg : WhitelistConfig) (ctx : PolicyContext) : PolicyDecision :=
  let tx := ctx.transaction
  let mode := cfg.mode.getD "warn_unknown"
  if tx.address_in_whitelist then
    PolicyDecision.allow []
  else if tx.is_new_address then
    if mode = "block_unknown" then
      PolicyDecision.block ("Address " ++ tx.to_address.take 10 ++
        "... is not in your whitelist. Add it to whitelist first.")
    else
      let warnings := ["This is a new address not in your whitelist: " ++
        tx.to_address.take 10 ++ "..."]
      match cfg.quarantine_hours_for_new with
      | some q =>
        if q != 0 then
          { allowed := true, delay_seconds := some (q * 3600), warnings := warnings,
            reason := "New address requires " ++ toString q ++ "h quarantine" }
        else whitelist_2fa_check cfg warnings
      | none => whitelist_2fa_check cfg warnings
  else
    PolicyDecision.allow ["Consider adding frequently used addresses to your whitelist"]

/-! ## TimelockRule (`rules/timelock.py`) -/

/-- Typed view of the `TimelockRule` config dict. -/
structure TimelockConfig where
  block_start_hour : Option Int := none
  block_end_hour : Option Int := none
  timezone : Option String := none
  block_weekends : Bool := false

/-- Embeds `current_time.astimezone(ZoneInfo(tz))` with the `except` fallback to
the unconverted time: the (hour, weekday) pair the rule works with. -/
def resolveLocal (now : DateTime) (tz : String) : Int × Int :=
  (now.byZone tz).getD now.fallback

/-- Embeds `TimelockRule._is_in_blocked_period`. -/
def is_in_blocked_period (current start finish : Int) : Bool :=
  if start ≤ finish then decide (start ≤ current ∧ current < finish)
  else decide (current ≥ start ∨ current < finish)

/-- Embeds `TimelockRule.evaluate`. -/
def timelock_evaluate (cfg : TimelockConfig) (ctx : PolicyContext) : PolicyDecision :=
  let timezone_str := cfg.timezone.getD "UTC"
  let hw := resolveLocal ctx.current_time timezone_str
  let current_hour := hw.1
  let current_weekday := hw.2
  if cfg.block_weekends ∧ current_weekday ≥ 5 then
    PolicyDecision.block "Transactions are blocked on weekends. Try again on Monday."
  else
    match cfg.block_start_hour, cfg.block_end_hour with
    | some start_hour, some end_hour =>
      if is_in_blocked_period current_hour start_hour end_hour then
        let hours_until : Int :=
          if end_hour > current_hour then end_hour - current_hour
          else (24 - current_hour) + end_hour
        PolicyDecision.block ("Transactions are blocked between " ++
          toString start_hour ++ ":00 and " ++ toString end_hour ++ ":00 (" ++
          timezone_str ++ "). Try again in ~" ++ toString hours_until ++ " hours.")
      else PolicyDecision.allow []
    | _, _ => PolicyDecision.allow []

/-! ## Evaluator facade (`evaluator.py`) -/

/-- A rule configuration payload as stored in a policy record; the
evaluator's registry knows the three built-in rule types. A payload of
the wrong shape reads like an empty config dict (every key absent). -/
inductive RuleConfig where
  | velocity (c : VelocityConfig)
  | whitelist (c : WhitelistConfig)
  | timelock (c : TimelockConfig)

def RuleConfig.asVelocity : RuleConfig → VelocityConfig
  | .velocity c => c
  | _ => {}

def RuleConfig.asWhitelist : RuleConfig → WhitelistConfig
  | .whitelist c => c
  | _ => {}

def RuleConfig.asTimelock : RuleConfig → TimelockConfig
  | .timelock c => c
  | _ => {}

/-- The registry built in `PolicyEvaluator.__init__` (velocity,
whitelist, timelock). Built-in rules never raise: `evaluate` is total. -/
def evaluatorRegistry : String → Option (String → RuleConfig → Int → Rule) :=
  fun rt =>
    if rt = "velocity" then
      some (fun n c p => ⟨n, p, fun ctx => some (velocity_evaluate c.asVelocity ctx)⟩)
    else if rt = "whitelist" then
      some (fun n c p => ⟨n, p, fun ctx => some (whitelist_evaluate c.asWhitelist ctx)⟩)
    else if rt = "timelock" then
      some (fun n c p => ⟨n, p, fun ctx => some (timelock_evaluate c.asTimelock ctx)⟩)
    else none

/-- The keyword arguments of `PolicyEvaluator.evaluate_transaction`. -/
structure EvaluateArgs where
  user_id : String
  user_tier : String
  chain : String
  to_address : String
  value_usd : ℚ
  daily_outflow_usd : ℚ := 0
  is_new_address : Bool := true
  is_contract_call : Bool := false
  contract_verified : Bool := false
  duress_mode : Bool := false
  now : DateTime

/-- The `TransactionContext` that `PolicyEvaluator.evaluate_transaction`
builds and hands to the executor. Note
`address_in_whitelist=not is_new_address  # Simplified`. -/
def evaluatorContext (a : EvaluateArgs) : TransactionContext :=
  { chain := a.chain, to_address := a.to_address, value_native := 0,
    value_usd := a.value_usd, user_id := a.user_id, user_tier := a.user_tier,
    daily_outflow_usd := a.daily_outflow_usd, is_new_address := a.is_new_address,
    address_in_whitelist := !a.is_new_address, current_time := a.now,
    duress_mode_active := a.duress_mode, is_contract_call := a.is_contract_call,
    contract_verified := a.contract_verified }

/-- Embeds `PolicyEvaluator.evaluate_transaction`: load rules from config and
execute them against the built context. -/
def evaluate_transaction (policies : List (PolicyRecord RuleConfig))
    (a : EvaluateArgs) : ExecutionResult :=
  execute (load_rules_from_config evaluatorRegistry policies) (evaluatorContext a)

/-! ## Derived notions used to state the claims -/

/-- Classification of a single `PolicyDecision` by the branch of the
aggregation loop it triggers (from a non-BLOCK, non-DELAY running state). -/
def classOf (d : PolicyDecision) : DecisionType :=
  if d.allowed = false then .BLOCK
  else if posDelay d.delay_seconds then .DELAY
  else if d.require_2fa then .REQUIRE_2FA
  else if d.warnings ≠ [] then .WARN
  else .ALLOW

/-- Maximum of two decisions under the restrictiveness order. -/
def maxD (a b : DecisionType) : DecisionType :=
  if a.restr ≤ b.restr then b else a

/-- A (rule, decision) pair that requests an effective (positive) delay:
`allowed` and a truthy `delay_seconds`. -/
def delayerB (rd : Rule × PolicyDecision) : Bool :=
  rd.2.allowed && posDelay rd.2.delay_seconds

/-- The delay value of a decision (`0` when absent). -/
def dval (rd : Rule × PolicyDecision) : Nat :=
  rd.2.delay_seconds.getD 0

/-- Maximum effective delay requested across a decision list. -/
def maxDelay (ds : List (Rule × PolicyDecision)) : Nat :=
  ds.foldr (fun rd a => if delayerB rd then max (dval rd) a else a) 0

/-- Whether the aggregation loop's 2FA branch fires on some decision:
an allowed, no-effective-delay, `require_2fa` decision appearing before
any blocking or delaying decision. -/
def twofaFired : List PolicyDecision → Bool
  | [] => false
  | d :: rest =>
    if d.allowed = false then false
    else if posDelay d.delay_seconds then false
    else if d.require_2fa then true
    else twofaFired rest

/-- Evolution of the running (max delay, attributed rule) pair over the
remaining decisions, strictly-greater updates only. -/
def updMax (m : Nat) (br : Option String) : List (Rule × PolicyDecision) → Nat × Option String
  | [] => (m, br)
  | rd :: rest =>
    if delayerB rd then
      if m < dval rd then updMax (dval rd) (some rd.1.name) rest
      else updMax m br rest
    else updMax m br rest

/-- Concatenation of all warnings of a decision list. -/
def allWarningsOf (ds : List (Rule × PolicyDecision)) : List String :=
  ds.foldr (fun rd acc => rd.2.warnings ++ acc) []

/-- Concatenation of all required actions of a decision list. -/
def allActionsOf (ds : List (Rule × PolicyDecision)) : List String :=
  ds.foldr (fun rd acc => rd.2.required_actions ++ acc) []

/-! ## Built-in rule instances (for the monotonicity claim)

A "configured rule set" in the sense of the spec is a list of instances
of the three shipped rule classes. -/

/-- An instance of one of the three built-in rule classes. -/
structure BuiltinRule where
  name : String
  priority : Int
  kind : RuleConfig

/-- Evaluation dispatch for built-in rules. -/
def evalByKind : RuleConfig → PolicyContext → PolicyDecision
  | .velocity c, ctx => velocity_evaluate c ctx
  | .whitelist c, ctx => whitelist_evaluate c ctx
  | .timelock c, ctx => timelock_evaluate c ctx

/-- View a built-in rule instance as an executor rule (total `evaluate`:
the shipped rules cannot raise in this embedding). -/
def BuiltinRule.toRule (b : BuiltinRule) : Rule :=
  ⟨b.name, b.priority, fun ctx => some (evalByKind b.kind ctx)⟩

/-- A velocity config whose `delay_hours` (default 24) is nonzero; a
configured `delay_hours = 0` makes the rule's delay decision vanish at
aggregation. Other rule kinds impose no condition. -/
def delayHoursPositive : RuleConfig → Prop
  | .velocity c => c.delay_hours.getD 24 ≠ 0
  | _ => True

/-! ## Concrete fixtures used in witnesses and counterexamples -/

/-- A concrete timestamp: every timezone resolves to hour 12, Wednesday. -/
def dtNoon : DateTime := ⟨fun _ => some (12, 2), (12, 2)⟩

/-- A concrete baseline transaction context. -/
def txBase : TransactionContext :=
  { chain := "ethereum", to_address := "0xabcdef1234567890", value_native := 0,
    value_usd := 60, daily_outflow_usd := 10, current_time := dtNoon }

/-- A rule whose evaluation always raises. -/
def raisingRule : Rule := ⟨"raiser", 5, fun _ => none⟩

/-- A rule that always plainly allows. -/
def allowRule : Rule := ⟨"allower", 10, fun _ => some (PolicyDecision.allow [])⟩

/-- A rule that always blocks. -/
def blockRule : Rule := ⟨"blocker", 7, fun _ => some (PolicyDecision.block "no")⟩

/-- Decision list: a 2FA-requesting decision, then a decision that "set"
`delay_seconds` but to `0`. -/
def dsTwofaZeroDelay : List (Rule × PolicyDecision) :=
  [(⟨"hi", 10, fun _ => none⟩, { allowed := true, require_2fa := true }),
   (⟨"lo", 5, fun _ => none⟩, { allowed := true, delay_seconds := some 0 })]

/-- Decision list: a 2FA-requesting decision, then a blocking decision. -/
def dsTwofaBlock : List (Rule × PolicyDecision) :=
  [(⟨"hi", 10, fun _ => none⟩, { allowed := true, require_2fa := true }),
   (⟨"lo", 5, fun _ => none⟩, PolicyDecision.block "no")]

/-- A transaction with a given value and daily outflow. -/
def txSc (v outflow : ℚ) : TransactionContext :=
  { chain := "ethereum", to_address := "0xabcdef1234567890", value_native := 0,
    value_usd := v, daily_outflow_usd := outflow, current_time := dtNoon }

/-- The velocity configuration of the spec's scenarios A-D. -/
def vcfgSpec : VelocityConfig :=
  { max_per_tx_usd := some 25000, max_daily_usd := some 50000,
    require_2fa_above_usd := some 10000 }

/-- Velocity config with only a 2FA threshold (no daily or per-tx cap). -/
def vcfgNoDaily : VelocityConfig := { require_2fa_above_usd := some 10000 }

/-- Whitelist config with a zero quarantine and a 2FA requirement. -/
def wcfgZero : WhitelistConfig :=
  { mode := some "warn_unknown", require_2fa_for_new := true,
    quarantine_hours_for_new := some 0 }

/-- Whitelist config with a 24h quarantine (spec scenario F). -/
def wcfgQuar : WhitelistConfig :=
  { mode := some "warn_unknown", quarantine_hours_for_new := some 24 }

/-- Timelock config: overnight window 23:00-06:00, weekends blocked. -/
def tcfgNight : TimelockConfig :=
  { block_start_hour := some 23, block_end_hour := some 6, block_weekends := true }

/-- A timestamp resolving to hour 2, Wednesday, in every timezone. -/
def dtNight : DateTime := ⟨fun _ => some (2, 2), (2, 2)⟩

/-- Velocity config whose configured `delay_hours` is `0`. -/
def vcfgZeroDelay : VelocityConfig :=
  { require_2fa_above_usd := some 50, delay_hours_above_usd := some 100,
    delay_hours := some 0 }

/-- A built-in velocity rule instance with `delay_hours = 0`. -/
def ruleZeroDelay : BuiltinRule := ⟨"v", 0, .velocity vcfgZeroDelay⟩

/-- Velocity config with the default (24h) delay. -/
def vcfgDelayDefault : VelocityConfig :=
  { require_2fa_above_usd := some 50, delay_hours_above_usd := some 100 }

/-- A built-in velocity rule instance with the default delay hours. -/
def ruleDelayDefault : BuiltinRule := ⟨"v", 0, .velocity vcfgDelayDefault⟩

/-- Policy records exercising active, inactive and unknown rule types. -/
def policiesW : List (PolicyRecord RuleConfig) :=
  [{ rule_type := some "velocity", name := some "v",
     config := .velocity vcfgNoDaily, priority := 5 },
   { rule_type := some "timelock", name := some "t",
     config := .timelock tcfgNight, priority := 10 },
   { rule_type := some "whitelist", name := some "w",
     config := .whitelist wcfgQuar, priority := 7, is_active := false },
   { rule_type := some "mystery", name := some "m",
     config := .velocity {}, priority := 99 }]

/-! # Theorems -/

/-! ## C1: duress-mode short circuit -/

/-- C1: for every rule set and every transaction with
`duress_mode_active = true`, `execute` returns immediately with
decision `ALLOW`, warnings `["DURESS_MODE_ACTIVE"]` and
`rules_evaluated = ["duress_intercept"]`, independently of the
configured rules. -/
theorem duress_short_circuit (rules : List Rule) (tx : TransactionContext)
    (h : tx.duress_mode_active = true) :
    execute rules tx =
      { decision := .ALLOW, blocking_rule := none, delay_seconds := none,
        warnings := ["DURESS_MODE_ACTIVE"], required_actions := [],
        rules_evaluated := ["duress_intercept"] } := by
  simp [execute, h, mkExecutionResult]

/-- Witness for C1: a duress transaction against an always-blocking rule
is still allowed with the duress marker. -/
theorem duress_short_circuit_witness :
    ({ txBase with duress_mode_active := true } : TransactionContext).duress_mode_active
      = true ∧
    execute [blockRule] { txBase with duress_mode_active := true } =
      { decision := .ALLOW, blocking_rule := none, delay_seconds := none,
        warnings := ["DURESS_MODE_ACTIVE"], required_actions := [],
        rules_evaluated := ["duress_intercept"] } :=
  ⟨rfl, duress_short_circuit [blockRule] _ rfl⟩

/-! ## C2: fail-closed on rule evaluation errors -/

/-- Every rule of `pre` evaluates without raising, `r` raises: the whole
loop reports the error at `r` with the names evaluated so far. -/
theorem runRules_error_after (ctx : PolicyContext) (r : Rule)
    (hr : r.evaluate ctx = none) (pre : List Rule)
    (hpre : ∀ p ∈ pre, (p.evaluate ctx).isSome = true) (post : List Rule) :
    runRules ctx (pre ++ r :: post) = .errorAt (pre.map Rule.name) r := by
  induction pre with
  | nil => simp [runRules, hr]
  | cons p rest ih =>
    have hp := hpre p (by simp)
    obtain ⟨d, hd⟩ := Option.isSome_iff_exists.mp hp
    have := ih (fun q hq => hpre q (by simp [hq]))
    simp [runRules, hd, this]

/-- A raising rule anywhere in the list makes the loop report an error. -/
theorem runRules_error_of_mem (ctx : PolicyContext) (rules : List Rule)
    (h : ∃ r ∈ rules, r.evaluate ctx = none) :
    ∃ ns f, runRules ctx rules = .errorAt ns f := by
  induction rules with
  | nil => simp at h
  | cons p rest ih =>
    rcases h with ⟨r, hr, hnone⟩
    rcases List.mem_cons.mp hr with rfl | hmem
    · exact ⟨[], r, by simp [runRules, hnone]⟩
    · cases hp : p.evaluate ctx with
      | none => exact ⟨[], p, by simp [runRules, hp]⟩
      | some d =>
        obtain ⟨ns, f, hrun⟩ := ih ⟨r, hmem, hnone⟩
        exact ⟨p.name :: ns, f, by simp [runRules, hp, hrun]⟩

/-- C2: if a rule raises during a non-duress execution, the result is
`BLOCK` with `blocking_rule = "<name> (evaluation error)"` naming the
first raising rule, and `rules_evaluated` listing the rules run so far
including the raising one; no `ALLOW` is ever returned when some rule
raises, even if a higher-priority rule already allowed. -/
theorem exec_fail_closed :
    (∀ (tx : TransactionContext) (pre : List Rule) (r : Rule) (post : List Rule),
      tx.duress_mode_active = false →
      (∀ p ∈ pre, (p.evaluate (mkPolicyContext tx)).isSome = true) →
      r.evaluate (mkPolicyContext tx) = none →
      execute (pre ++ r :: post) tx =
        { decision := .BLOCK, blocking_rule := some (r.name ++ " (evaluation error)"),
          delay_seconds := none, warnings := [], required_actions := [],
          rules_evaluated := pre.map Rule.name ++ [r.name] }) ∧
    (∀ (tx : TransactionContext) (rules : List Rule),
      tx.duress_mode_active = false →
      (∃ r ∈ rules, r.evaluate (mkPolicyContext tx) = none) →
      (execute rules tx).decision = .BLOCK) := by
  constructor
  · intro tx pre r post hd hpre hr
    have hrun := runRules_error_after (mkPolicyContext tx) r hr pre hpre post
    simp [execute, hd, hrun, mkExecutionResult]
  · intro tx rules hd hex
    obtain ⟨ns, f, hrun⟩ := runRules_error_of_mem (mkPolicyContext tx) rules hex
    simp [execute, hd, hrun, mkExecutionResult]

/-- Witness for C2: an allowing rule followed by a raising rule yields a
block naming the raising rule, with both rules in the audit trail. -/
theorem exec_fail_closed_witness :
    txBase.duress_mode_active = false ∧
    execute [allowRule, raisingRule] txBase =
      { decision := .BLOCK, blocking_rule := some "raiser (evaluation error)",
        delay_seconds := none, warnings := [], required_actions := [],
        rules_evaluated := ["allower", "raiser"] } :=
  ⟨rfl, exec_fail_closed.1 txBase [allowRule] raisingRule [] rfl
    (by intro p hp; simp at hp; subst hp; rfl) rfl⟩

/-! ## C9: the evaluator facade's whitelist flag -/

/-- C9: the `TransactionContext` built by
`PolicyEvaluator.evaluate_transaction` always has
`address_in_whitelist = not is_new_address`; hence the whitelist rule's
known-but-not-whitelisted branch (which needs both flags false) is
unreachable through the facade, and a new address is never marked
whitelisted (both flags are never true together). -/
theorem evaluator_whitelist_flag (a : EvaluateArgs) :
    (evaluatorContext a).address_in_whitelist = !(evaluatorContext a).is_new_address ∧
    ((evaluatorContext a).address_in_whitelist || (evaluatorContext a).is_new_address)
      = true ∧
    (!((evaluatorContext a).address_in_whitelist && (evaluatorContext a).is_new_address))
      = true := by
  cases h : a.is_new_address <;> simp [evaluatorContext, h]

/-! ## C10: a recorded delay survives a later block -/

/-- C10: a decision sequence with a higher-priority delaying rule
(positive delay `d`) followed by a lower-priority blocking rule
aggregates to `BLOCK` attributed to the blocker, while the
`delay_seconds` field still holds `d` (it is not cleared on upgrade). -/
theorem block_keeps_recorded_delay (r1 r2 : Rule) (d : Nat) (s1 s2 : String)
    (hp : r2.priority < r1.priority) (hd : 0 < d) :
    (aggregate_decisions [(r1, PolicyDecision.delay d s1),
                          (r2, PolicyDecision.block s2)]).decision = .BLOCK ∧
    (aggregate_decisions [(r1, PolicyDecision.delay d s1),
                          (r2, PolicyDecision.block s2)]).delay_seconds = some d ∧
    (aggregate_decisions [(r1, PolicyDecision.delay d s1),
                          (r2, PolicyDecision.block s2)]).blocking_rule = some r2.name := by
  obtain ⟨k, rfl⟩ : ∃ k, d = k + 1 := ⟨d - 1, by omega⟩
  simp [aggregate_decisions, aggLoop, aggStep, aggInit, mkExecutionResult,
        PolicyDecision.delay, PolicyDecision.block, posDelay]

/-- Witness for C10 at a one-hour delay and two concrete rules. -/
theorem block_keeps_recorded_delay_witness :
    allowRule.priority > blockRule.priority ∧ 0 < 3600 ∧
    (aggregate_decisions [(allowRule, PolicyDecision.delay 3600 "big amount"),
                          (blockRule, PolicyDecision.block "not whitelisted")]).decision
      = .BLOCK ∧
    (aggregate_decisions [(allowRule, PolicyDecision.delay 3600 "big amount"),
                          (blockRule, PolicyDecision.block "not whitelisted")]).delay_seconds
      = some 3600 :=
  ⟨by decide, by decide,
    (block_keeps_recorded_delay allowRule blockRule 3600 "big amount" "not whitelisted"
      (by decide) (by decide)).1,
    (block_keeps_recorded_delay allowRule blockRule 3600 "big amount" "not whitelisted"
      (by decide) (by decide)).2.1⟩

/-! ## Aggregation analysis -/

theorem aggLoop_cons (st : AggState) (rd : Rule × PolicyDecision)
    (rest : List (Rule × PolicyDecision)) :
    aggLoop st (rd :: rest) = aggLoop (aggStep st rd) rest := rfl

theorem aggStep_final (st : AggState) (rd : Rule × PolicyDecision) :
    (aggStep st rd).final_decision = maxD st.final_decision (classOf rd.2) := by
  rcases rd with ⟨rule, d⟩
  unfold aggStep classOf
  cases hA : d.allowed <;> cases hP : posDelay d.delay_seconds <;>
    cases hT : d.require_2fa <;> by_cases hW : d.warnings = [] <;>
    cases hF : st.final_decision <;>
    simp [hA, hP, hT, hW, hF, maxD, DecisionType.restr] <;>
    split_ifs <;> simp

theorem aggStep_rules_evaluated (st : AggState) (rd : Rule × PolicyDecision) :
    (aggStep st rd).rules_evaluated = st.rules_evaluated ++ [rd.1.name] := by
  rcases rd with ⟨rule, d⟩
  simp only [aggStep]
  split_ifs <;> rfl

theorem aggStep_warnings (st : AggState) (rd : Rule × PolicyDecision) :
    (aggStep st rd).all_warnings = st.all_warnings ++ rd.2.warnings := by
  rcases rd with ⟨rule, d⟩
  simp only [aggStep]
  split_ifs <;> rfl

theorem aggLoop_final (ds : List (Rule × PolicyDecision)) :
    ∀ st : AggState, (aggLoop st ds).final_decision =
      ds.foldl (fun a rd => maxD a (classOf rd.2)) st.final_decision := by
  induction ds with
  | nil => intro st; rfl
  | cons rd rest ih =>
    intro st
    show (aggLoop (aggStep st rd) rest).final_decision = _
    rw [ih, List.foldl_cons, aggStep_final]

theorem aggLoop_rules_evaluated (ds : List (Rule × PolicyDecision)) :
    ∀ st : AggState, (aggLoop st ds).rules_evaluated =
      st.rules_evaluated ++ ds.map (fun rd => rd.1.name) := by
  induction ds with
  | nil => intro st; simp [aggLoop]
  | cons rd rest ih =>
    intro st
    show (aggLoop (aggStep st rd) rest).rules_evaluated = _
    rw [ih, aggStep_rules_evaluated]
    simp

theorem aggLoop_warnings (ds : List (Rule × PolicyDecision)) :
    ∀ st : AggState, (aggLoop st ds).all_warnings =
      st.all_warnings ++ allWarningsOf ds := by
  induction ds with
  | nil => intro st; simp [aggLoop, allWarningsOf]
  | cons rd rest ih =>
    intro st
    show (aggLoop (aggStep st rd) rest).all_warnings = _
    rw [ih, aggStep_warnings]
    simp [allWarningsOf]

theorem mem_allWarningsOf (s : String) (ds : List (Rule × PolicyDecision)) :
    s ∈ allWarningsOf ds ↔ ∃ rd ∈ ds, s ∈ rd.2.warnings := by
  induction ds with
  | nil => simp [allWarningsOf]
  | cons rd rest ih =>
    have h : allWarningsOf (rd :: rest) = rd.2.warnings ++ allWarningsOf rest := rfl
    rw [h]
    simp only [List.mem_append, ih, List.mem_cons]
    constructor
    · rintro (hs | ⟨rd', hmem, hs⟩)
      · exact ⟨rd, Or.inl rfl, hs⟩
      · exact ⟨rd', Or.inr hmem, hs⟩
    · rintro ⟨rd', rfl | hmem, hs⟩
      · exact Or.inl hs
      · exact Or.inr ⟨rd', hmem, hs⟩

theorem mem_allActionsOf (s : String) (ds : List (Rule × PolicyDecision)) :
    s ∈ allActionsOf ds ↔ ∃ rd ∈ ds, s ∈ rd.2.required_actions := by
  induction ds with
  | nil => simp [allActionsOf]
  | cons rd rest ih =>
    have h : allActionsOf (rd :: rest) = rd.2.required_actions ++ allActionsOf rest := rfl
    rw [h]
    simp only [List.mem_append, ih, List.mem_cons]
    constructor
    · rintro (hs | ⟨rd', hmem, hs⟩)
      · exact ⟨rd, Or.inl rfl, hs⟩
      · exact ⟨rd', Or.inr hmem, hs⟩
    · rintro ⟨rd', rfl | hmem, hs⟩
      · exact Or.inl hs
      · exact Or.inr ⟨rd', hmem, hs⟩

theorem maxD_choice (a b : DecisionType) : maxD a b = a ∨ maxD a b = b := by
  unfold maxD; split_ifs <;> simp

theorem restr_le_maxD_left (a b : DecisionType) : a.restr ≤ (maxD a b).restr := by
  revert a b; decide

theorem restr_le_maxD_right (a b : DecisionType) : b.restr ≤ (maxD a b).restr := by
  revert a b; decide

theorem foldMaxD_choice (l : List (Rule × PolicyDecision)) :
    ∀ a : DecisionType,
      l.foldl (fun a rd => maxD a (classOf rd.2)) a = a ∨
      ∃ rd ∈ l, l.foldl (fun a rd => maxD a (classOf rd.2)) a = classOf rd.2 := by
  induction l with
  | nil => intro a; left; rfl
  | cons rd rest ih =>
    intro a
    rw [List.foldl_cons]
    rcases ih (maxD a (classOf rd.2)) with h | ⟨rd', hmem, h⟩
    · rcases maxD_choice a (classOf rd.2) with hc | hc
      · left; rw [h, hc]
      · right; exact ⟨rd, by simp, by rw [h, hc]⟩
    · right; exact ⟨rd', by simp [hmem], h⟩

theorem foldMaxD_le_left (l : List (Rule × PolicyDecision)) :
    ∀ a : DecisionType,
      a.restr ≤ (l.foldl (fun a rd => maxD a (classOf rd.2)) a).restr := by
  induction l with
  | nil => intro a; exact Nat.le_refl _
  | cons rd rest ih =>
    intro a
    rw [List.foldl_cons]
    exact Nat.le_trans (restr_le_maxD_left a (classOf rd.2)) (ih _)

theorem foldMaxD_le_mem (l : List (Rule × PolicyDecision)) :
    ∀ a : DecisionType, ∀ rd ∈ l,
      (classOf rd.2).restr ≤ (l.foldl (fun a rd => maxD a (classOf rd.2)) a).restr := by
  induction l with
  | nil => intro a rd h; simp at h
  | cons rd0 rest ih =>
    intro a rd h
    rw [List.foldl_cons]
    rcases List.mem_cons.mp h with rfl | hmem
    · exact Nat.le_trans (restr_le_maxD_right a (classOf rd.2)) (foldMaxD_le_left rest _)
    · exact ih _ rd hmem

theorem classOf_eq_BLOCK (d : PolicyDecision) :
    classOf d = .BLOCK ↔ d.allowed = false := by
  unfold classOf; split_ifs <;> simp_all

theorem classOf_eq_DELAY (d : PolicyDecision) :
    classOf d = .DELAY ↔ (d.allowed = true ∧ posDelay d.delay_seconds = true) := by
  unfold classOf; split_ifs <;> simp_all

theorem classOf_eq_REQUIRE_2FA (d : PolicyDecision) :
    classOf d = .REQUIRE_2FA ↔
      (d.allowed = true ∧ posDelay d.delay_seconds = false ∧ d.require_2fa = true) := by
  unfold classOf; split_ifs <;> simp_all

theorem classOf_eq_WARN (d : PolicyDecision) :
    classOf d = .WARN ↔
      (d.allowed = true ∧ posDelay d.delay_seconds = false ∧ d.require_2fa = false ∧
        d.warnings ≠ []) := by
  unfold classOf; split_ifs <;> simp_all

theorem eq_BLOCK_of_restr (dt : DecisionType) (h : 4 ≤ dt.restr) : dt = .BLOCK := by
  revert dt; decide

theorem eq_DELAY_of_restr (dt : DecisionType) (h3 : 3 ≤ dt.restr) (h3' : dt.restr ≤ 3) :
    dt = .DELAY := by
  revert dt; decide

theorem eq_REQUIRE_2FA_of_restr (dt : DecisionType) (h2 : 2 ≤ dt.restr)
    (h2' : dt.restr ≤ 2) : dt = .REQUIRE_2FA := by
  revert dt; decide

theorem eq_WARN_of_restr (dt : DecisionType) (h1 : 1 ≤ dt.restr) (h1' : dt.restr ≤ 1) :
    dt = .WARN := by
  revert dt; decide

theorem eq_ALLOW_of_restr (dt : DecisionType) (h0 : dt.restr ≤ 0) : dt = .ALLOW := by
  revert dt; decide

theorem aggStep_block_absorb (st : AggState) (rd : Rule × PolicyDecision)
    (h : st.final_decision = .BLOCK) :
    (aggStep st rd).final_decision = .BLOCK ∧
    (aggStep st rd).blocking_rule = st.blocking_rule ∧
    (aggStep st rd).delay_seconds = st.delay_seconds := by
  rcases rd with ⟨rule, d⟩
  simp only [aggStep]
  split_ifs <;> simp_all

theorem aggLoop_block_absorb (ds : List (Rule × PolicyDecision)) :
    ∀ st : AggState, st.final_decision = .BLOCK →
    (aggLoop st ds).final_decision = .BLOCK ∧
    (aggLoop st ds).blocking_rule = st.blocking_rule ∧
    (aggLoop st ds).delay_seconds = st.delay_seconds := by
  induction ds with
  | nil => intro st h; exact ⟨h, rfl, rfl⟩
  | cons rd rest ih =>
    intro st h
    have hs := aggStep_block_absorb st rd h
    have hl := ih (aggStep st rd) hs.1
    exact ⟨hl.1, hl.2.1.trans hs.2.1, hl.2.2.trans hs.2.2⟩

theorem aggStep_final_ne_block (st : AggState) (rd : Rule × PolicyDecision)
    (hA : rd.2.allowed = true) (h : st.final_decision ≠ .BLOCK) :
    (aggStep st rd).final_decision ≠ .BLOCK := by
  rw [aggStep_final]
  have hcl : classOf rd.2 ≠ .BLOCK := by
    intro hc; rw [classOf_eq_BLOCK] at hc; simp [hA] at hc
  revert h hcl
  generalize st.final_decision = f
  generalize classOf rd.2 = c
  revert f c; decide

theorem aggLoop_first_blocker (ds : List (Rule × PolicyDecision)) :
    ∀ (st : AggState) (rb : Rule × PolicyDecision), st.final_decision ≠ .BLOCK →
    ds.find? (fun rd => !rd.2.allowed) = some rb →
    (aggLoop st ds).final_decision = .BLOCK ∧
    (aggLoop st ds).blocking_rule = some rb.1.name := by
  induction ds with
  | nil => intro st rb _ hf; simp at hf
  | cons rd rest ih =>
    intro st rb h hf
    cases hA : rd.2.allowed with
    | false =>
      have hfc : (rd :: rest).find? (fun rd => !rd.2.allowed) = some rd :=
        List.find?_cons_of_pos _ (by simp [hA])
      rw [hfc] at hf
      injection hf with hf
      subst hf
      have hstep : (aggStep st rd).final_decision = .BLOCK ∧
          (aggStep st rd).blocking_rule = some rd.1.name := by
        rcases rd with ⟨rule, d⟩
        simp only [aggStep]
        simp only [show d.allowed = false from hA]
        simp [h]
      have habs := aggLoop_block_absorb rest (aggStep st rd) hstep.1
      exact ⟨habs.1, habs.2.1.trans hstep.2⟩
    | true =>
      have hf' : rest.find? (fun rd => !rd.2.allowed) = some rb := by
        rwa [List.find?_cons_of_neg _ (by simp [hA])] at hf
      exact ih (aggStep st rd) rb (aggStep_final_ne_block st rd hA h) hf'

theorem posDelay_eq_some (o : Option Nat) (h : posDelay o = true) :
    o = some (o.getD 0) ∧ o.getD 0 ≠ 0 := by
  cases o <;> simp_all [posDelay]

theorem aggStep_soft_fields (st : AggState) (rd : Rule × PolicyDecision)
    (hA : rd.2.allowed = true) (hP : posDelay rd.2.delay_seconds = false) :
    (aggStep st rd).blocking_rule = st.blocking_rule ∧
    (aggStep st rd).delay_seconds = st.delay_seconds := by
  rcases rd with ⟨rule, d⟩
  simp only [aggStep]
  split_ifs <;> simp_all

theorem aggStep_final_soft (st : AggState) (rd : Rule × PolicyDecision)
    (hA : rd.2.allowed = true) (hP : posDelay rd.2.delay_seconds = false)
    (hB : st.final_decision ≠ .BLOCK) (hD : st.final_decision ≠ .DELAY) :
    (aggStep st rd).final_decision ≠ .BLOCK ∧
    (aggStep st rd).final_decision ≠ .DELAY := by
  rw [aggStep_final]
  have hcl : (classOf rd.2).restr ≤ 2 := by
    unfold classOf
    simp only [hA, hP]
    split_ifs <;> simp_all [DecisionType.restr]
  revert hB hD hcl
  generalize st.final_decision = f
  generalize classOf rd.2 = c
  revert f c; decide

theorem aggStep_delay_step (st : AggState) (rd : Rule × PolicyDecision) (m : Nat)
    (hA : rd.2.allowed = true) (hF : st.final_decision = .DELAY)
    (hm : st.delay_seconds = some m) :
    (aggStep st rd).final_decision = .DELAY ∧
    ((delayerB rd = true ∧ m < dval rd →
        (aggStep st rd).delay_seconds = some (dval rd) ∧
        (aggStep st rd).blocking_rule = some rd.1.name) ∧
     (¬(delayerB rd = true ∧ m < dval rd) →
        (aggStep st rd).delay_seconds = some m ∧
        (aggStep st rd).blocking_rule = st.blocking_rule)) := by
  by_cases hP : posDelay rd.2.delay_seconds = true
  · have hd : delayerB rd = true := by simp [delayerB, hA, hP]
    have hsome := posDelay_eq_some _ hP
    by_cases hlt : m < dval rd
    · have hlt' : m < rd.2.delay_seconds.getD 0 := hlt
      have hres : aggStep st rd =
          { st with
            all_warnings := st.all_warnings ++ rd.2.warnings,
            all_actions := st.all_actions ++ rd.2.required_actions,
            rules_evaluated := st.rules_evaluated ++ [rd.1.name],
            final_decision := .DELAY,
            delay_seconds := rd.2.delay_seconds,
            blocking_rule := some rd.1.name } := by
        simp only [aggStep]
        simp [hA, hP, hF, hm, hlt']
      rw [hres]
      refine ⟨rfl, fun _ => ⟨?_, rfl⟩, fun hc => absurd ⟨hd, hlt⟩ hc⟩
      simpa [dval] using hsome.1
    · have hlt' : ¬ m < rd.2.delay_seconds.getD 0 := hlt
      have hres : aggStep st rd =
          { st with
            all_warnings := st.all_warnings ++ rd.2.warnings,
            all_actions := st.all_actions ++ rd.2.required_actions,
            rules_evaluated := st.rules_evaluated ++ [rd.1.name],
            final_decision := .DELAY } := by
        simp only [aggStep]
        simp [hA, hP, hF, hm, hlt']
      rw [hres]
      exact ⟨rfl, fun hc => absurd hc.2 hlt, fun _ => ⟨hm, rfl⟩⟩
  · have hP' : posDelay rd.2.delay_seconds = false := by
      cases hx : posDelay rd.2.delay_seconds
      · rfl
      · exact absurd hx hP
    have hd : delayerB rd = false := by simp [delayerB, hP']
    have hsoft := aggStep_soft_fields st rd hA hP'
    have hfin : (aggStep st rd).final_decision = .DELAY := by
      rw [aggStep_final, hF]
      have hcl : (classOf rd.2).restr ≤ 2 := by
        unfold classOf
        simp only [hA, hP']
        split_ifs <;> simp_all [DecisionType.restr]
      revert hcl
      generalize classOf rd.2 = c
      revert c; decide
    refine ⟨hfin, fun hc => ?_, fun _ => ⟨hsoft.2.trans hm, hsoft.1⟩⟩
    rw [hd] at hc
    exact absurd hc.1 (by simp)

theorem aggLoop_delay_state (ds : List (Rule × PolicyDecision)) :
    ∀ (st : AggState) (m : Nat), st.final_decision = .DELAY →
    st.delay_seconds = some m →
    (∀ rd ∈ ds, rd.2.allowed = true) →
    (aggLoop st ds).final_decision = .DELAY ∧
    (aggLoop st ds).delay_seconds = some (updMax m st.blocking_rule ds).1 ∧
    (aggLoop st ds).blocking_rule = (updMax m st.blocking_rule ds).2 := by
  induction ds with
  | nil =>
    intro st m hF hm _
    exact ⟨hF, hm, rfl⟩
  | cons rd rest ih =>
    intro st m hF hm hall
    have hA : rd.2.allowed = true := hall rd (by simp)
    have hstep := aggStep_delay_step st rd m hA hF hm
    by_cases hcond : delayerB rd = true ∧ m < dval rd
    · have h2 := hstep.2.1 hcond
      have hl := ih (aggStep st rd) (dval rd) hstep.1 h2.1
        (fun q hq => hall q (by simp [hq]))
      rw [h2.2] at hl
      have hupd : updMax m st.blocking_rule (rd :: rest) =
          updMax (dval rd) (some rd.1.name) rest := by
        simp [updMax, hcond.1, hcond.2]
      rw [hupd]
      exact hl
    · have h2 := hstep.2.2 hcond
      have hl := ih (aggStep st rd) m hstep.1 h2.1
        (fun q hq => hall q (by simp [hq]))
      rw [h2.2] at hl
      have hupd : updMax m st.blocking_rule (rd :: rest) =
          updMax m st.blocking_rule rest := by
        by_cases hd : delayerB rd = true
        · have hnl : ¬ m < dval rd := fun hl' => hcond ⟨hd, hl'⟩
          simp [updMax, hd, hnl]
        · simp [updMax, hd]
      rw [hupd]
      exact hl

theorem maxDelay_cons (rd : Rule × PolicyDecision) (rest : List (Rule × PolicyDecision)) :
    maxDelay (rd :: rest) =
      if delayerB rd then max (dval rd) (maxDelay rest) else maxDelay rest := rfl

theorem updMax_val (rest : List (Rule × PolicyDecision)) :
    ∀ (m : Nat) (br : Option String), (updMax m br rest).1 = max m (maxDelay rest) := by
  induction rest with
  | nil => intro m br; simp [updMax, maxDelay]
  | cons rd rest ih =>
    intro m br
    by_cases hd : delayerB rd = true
    · by_cases hlt : m < dval rd
      · rw [show updMax m br (rd :: rest) = updMax (dval rd) (some rd.1.name) rest by
          simp [updMax, hd, hlt]]
        rw [ih, maxDelay_cons]
        simp [hd]
        omega
      · rw [show updMax m br (rd :: rest) = updMax m br rest by simp [updMax, hd, hlt]]
        rw [ih, maxDelay_cons]
        simp [hd]
        omega
    · rw [show updMax m br (rd :: rest) = updMax m br rest by simp [updMax, hd]]
      rw [ih, maxDelay_cons]
      simp [hd]

theorem updMax_attribution (rest : List (Rule × PolicyDecision)) :
    ∀ (m : Nat) (br : Option String),
    (maxDelay rest ≤ m → (updMax m br rest).2 = br) ∧
    (m < maxDelay rest → (updMax m br rest).2 =
      (rest.find? (fun rd => delayerB rd && (dval rd == maxDelay rest))).map
        (fun rd => rd.1.name)) := by
  induction rest with
  | nil =>
    intro m br
    refine ⟨fun _ => rfl, fun h => ?_⟩
    simp [maxDelay] at h
  | cons rd rest ih =>
    intro m br
    by_cases hd : delayerB rd = true
    · have hM : maxDelay (rd :: rest) = max (dval rd) (maxDelay rest) := by
        rw [maxDelay_cons]; simp [hd]
      constructor
      · intro hle
        rw [hM] at hle
        have hnl : ¬ m < dval rd := by omega
        rw [show updMax m br (rd :: rest) = updMax m br rest by simp [updMax, hd, hnl]]
        exact (ih m br).1 (by omega)
      · intro hgt
        rw [hM] at hgt
        by_cases hvM : maxDelay rest ≤ dval rd
        · have hMv : maxDelay (rd :: rest) = dval rd := by rw [hM]; omega
          have hmv : m < dval rd := by omega
          rw [show updMax m br (rd :: rest) = updMax (dval rd) (some rd.1.name) rest by
            simp [updMax, hd, hmv]]
          rw [(ih (dval rd) (some rd.1.name)).1 hvM]
          have hpred : (fun rd' => delayerB rd' && (dval rd' == maxDelay (rd :: rest))) rd
              = true := by
            simp [hd, hMv]
          have hfind : List.find?
              (fun rd' => delayerB rd' && (dval rd' == maxDelay (rd :: rest))) (rd :: rest)
              = some rd := List.find?_cons_of_pos _ hpred
          rw [hfind]
          rfl
        · have hM'v : dval rd < maxDelay rest := by omega
          have hMM : maxDelay (rd :: rest) = maxDelay rest := by rw [hM]; omega
          have hpred : ¬ ((fun rd' => delayerB rd' && (dval rd' == maxDelay (rd :: rest))) rd
              = true) := by
            simp [hd, hMM]
            omega
          have hfind : List.find?
              (fun rd' => delayerB rd' && (dval rd' == maxDelay (rd :: rest))) (rd :: rest)
              = List.find?
                  (fun rd' => delayerB rd' && (dval rd' == maxDelay (rd :: rest))) rest :=
            List.find?_cons_of_neg _ hpred
          rw [hfind, hMM]
          by_cases hmv : m < dval rd
          · rw [show updMax m br (rd :: rest) = updMax (dval rd) (some rd.1.name) rest by
              simp [updMax, hd, hmv]]
            exact (ih (dval rd) (some rd.1.name)).2 hM'v
          · rw [show updMax m br (rd :: rest) = updMax m br rest by simp [updMax, hd, hmv]]
            exact (ih m br).2 (by omega)
    · have hM : maxDelay (rd :: rest) = maxDelay rest := by
        rw [maxDelay_cons]; simp [hd]
      have hpred : ¬ ((fun rd' => delayerB rd' && (dval rd' == maxDelay (rd :: rest))) rd
          = true) := by
        simp [hd]
      constructor
      · intro hle
        rw [show updMax m br (rd :: rest) = updMax m br rest by simp [updMax, hd]]
        exact (ih m br).1 (by rw [hM] at hle; exact hle)
      · intro hgt
        rw [show updMax m br (rd :: rest) = updMax m br rest by simp [updMax, hd]]
        have hfind : List.find?
            (fun rd' => delayerB rd' && (dval rd' == maxDelay (rd :: rest))) (rd :: rest)
            = List.find?
                (fun rd' => delayerB rd' && (dval rd' == maxDelay (rd :: rest))) rest :=
          List.find?_cons_of_neg _ hpred
        rw [hfind, hM]
        exact (ih m br).2 (by rw [hM] at hgt; exact hgt)

theorem maxDelay_pos (ds : List (Rule × PolicyDecision))
    (h : ∃ rd ∈ ds, delayerB rd = true) : 1 ≤ maxDelay ds := by
  induction ds with
  | nil => simp at h
  | cons rd rest ih =>
    rcases h with ⟨rd', hmem, hdel⟩
    rcases List.mem_cons.mp hmem with rfl | hmem'
    · rw [maxDelay_cons]
      have : dval rd' ≠ 0 := by
        have := hdel
        simp [delayerB] at this
        exact (posDelay_eq_some _ this.2).2
      simp [hdel]
      omega
    · rw [maxDelay_cons]
      have := ih ⟨rd', hmem', hdel⟩
      split_ifs <;> omega

theorem aggLoop_delay_entry (ds : List (Rule × PolicyDecision)) :
    ∀ st : AggState, (∀ rd ∈ ds, rd.2.allowed = true) →
    (∃ rd ∈ ds, delayerB rd = true) →
    st.final_decision ≠ .BLOCK → st.final_decision ≠ .DELAY →
    st.delay_seconds = none →
    (aggLoop st ds).final_decision = .DELAY ∧
    (aggLoop st ds).delay_seconds = some (maxDelay ds) ∧
    (aggLoop st ds).blocking_rule =
      (ds.find? (fun rd => delayerB rd && (dval rd == maxDelay ds))).map
        (fun rd => rd.1.name) := by
  induction ds with
  | nil => intro st _ hex; simp at hex
  | cons rd rest ih =>
    intro st hall hex hB hD hnone
    have hA : rd.2.allowed = true := hall rd (by simp)
    by_cases hd : delayerB rd = true
    · have hP : posDelay rd.2.delay_seconds = true := by
        have := hd
        simp [delayerB, hA] at this
        exact this
      have hsome := posDelay_eq_some _ hP
      have hstep : (aggStep st rd).final_decision = .DELAY ∧
          (aggStep st rd).delay_seconds = some (dval rd) ∧
          (aggStep st rd).blocking_rule = some rd.1.name := by
        have h1 : aggStep st rd =
            { st with
              all_warnings := st.all_warnings ++ rd.2.warnings,
              all_actions := st.all_actions ++ rd.2.required_actions,
              rules_evaluated := st.rules_evaluated ++ [rd.1.name],
              final_decision := .DELAY,
              delay_seconds := rd.2.delay_seconds,
              blocking_rule := some rd.1.name } := by
          simp only [aggStep]
          simp [hA, hP, hB, hnone]
        rw [h1]
        refine ⟨rfl, ?_, rfl⟩
        simpa [dval] using hsome.1
      have hl := aggLoop_delay_state rest (aggStep st rd) (dval rd) hstep.1 hstep.2.1
        (fun q hq => hall q (by simp [hq]))
      rw [hstep.2.2] at hl
      have hM : maxDelay (rd :: rest) = max (dval rd) (maxDelay rest) := by
        rw [maxDelay_cons]; simp [hd]
      rw [aggLoop_cons]
      refine ⟨hl.1, ?_, ?_⟩
      · rw [hl.2.1, updMax_val, hM]
      · rw [hl.2.2]
        by_cases hvM : maxDelay rest ≤ dval rd
        · rw [(updMax_attribution rest (dval rd) (some rd.1.name)).1 hvM]
          have hMv : maxDelay (rd :: rest) = dval rd := by rw [hM]; omega
          have hpred : (fun rd' => delayerB rd' && (dval rd' == maxDelay (rd :: rest))) rd
              = true := by simp [hd, hMv]
          have hfind : List.find?
              (fun rd' => delayerB rd' && (dval rd' == maxDelay (rd :: rest))) (rd :: rest)
              = some rd := List.find?_cons_of_pos _ hpred
          rw [hfind]
          rfl
        · have hM'v : dval rd < maxDelay rest := by omega
          have hMM : maxDelay (rd :: rest) = maxDelay rest := by rw [hM]; omega
          rw [(updMax_attribution rest (dval rd) (some rd.1.name)).2 hM'v]
          have hpred : ¬ ((fun rd' => delayerB rd' && (dval rd' == maxDelay (rd :: rest))) rd
              = true) := by
            simp [hd, hMM]
            omega
          have hfind : List.find?
              (fun rd' => delayerB rd' && (dval rd' == maxDelay (rd :: rest))) (rd :: rest)
              = List.find?
                  (fun rd' => delayerB rd' && (dval rd' == maxDelay (rd :: rest))) rest :=
            List.find?_cons_of_neg _ hpred
          rw [hfind, hMM]
    · have hP : posDelay rd.2.delay_seconds = false := by
        cases hx : posDelay rd.2.delay_seconds
        · rfl
        · exact absurd (by simp [delayerB, hA, hx] : delayerB rd = true) hd
      have hsoft := aggStep_soft_fields st rd hA hP
      have hfin := aggStep_final_soft st rd hA hP hB hD
      have hex' : ∃ q ∈ rest, delayerB q = true := by
        rcases hex with ⟨q, hmem, hq⟩
        rcases List.mem_cons.mp hmem with rfl | hmem'
        · exact absurd hq (by simp [hd])
        · exact ⟨q, hmem', hq⟩
      have hl := ih (aggStep st rd) (fun q hq => hall q (by simp [hq])) hex'
        hfin.1 hfin.2 (hsoft.2.trans hnone)
      have hM : maxDelay (rd :: rest) = maxDelay rest := by
        rw [maxDelay_cons]; simp [hd]
      have hpred : ¬ ((fun rd' => delayerB rd' && (dval rd' == maxDelay (rd :: rest))) rd
          = true) := by simp [hd]
      have hfind : List.find?
          (fun rd' => delayerB rd' && (dval rd' == maxDelay (rd :: rest))) (rd :: rest)
          = List.find?
              (fun rd' => delayerB rd' && (dval rd' == maxDelay (rd :: rest))) rest :=
        List.find?_cons_of_neg _ hpred
      rw [aggLoop_cons]
      refine ⟨hl.1, by rw [hl.2.1, hM], ?_⟩
      rw [hl.2.2, hfind, hM]

theorem aggStep_actions (st : AggState) (rd : Rule × PolicyDecision) :
    (aggStep st rd).all_actions = st.all_actions ++ rd.2.required_actions ++
      (if rd.2.allowed = true ∧ posDelay rd.2.delay_seconds = false ∧
          rd.2.require_2fa = true ∧ st.final_decision ≠ .BLOCK ∧
          st.final_decision ≠ .DELAY
       then ["2fa_required"] else []) := by
  simp only [aggStep]
  split_ifs <;> simp_all

theorem aggStep_not_BD (st : AggState) (rd : Rule × PolicyDecision) :
    ((aggStep st rd).final_decision ≠ .BLOCK ∧ (aggStep st rd).final_decision ≠ .DELAY) ↔
    ((st.final_decision ≠ .BLOCK ∧ st.final_decision ≠ .DELAY) ∧
      rd.2.allowed = true ∧ posDelay rd.2.delay_seconds = false) := by
  have hm : ∀ f c : DecisionType,
      ((maxD f c ≠ .BLOCK ∧ maxD f c ≠ .DELAY) ↔
        ((f ≠ .BLOCK ∧ f ≠ .DELAY) ∧ (c ≠ .BLOCK ∧ c ≠ .DELAY))) := by decide
  rw [aggStep_final, hm]
  have h1 : (classOf rd.2 ≠ .BLOCK ∧ classOf rd.2 ≠ .DELAY) ↔
      (rd.2.allowed = true ∧ posDelay rd.2.delay_seconds = false) := by
    rw [Ne, Ne, classOf_eq_BLOCK, classOf_eq_DELAY]
    rcases hA : rd.2.allowed <;> rcases hPp : posDelay rd.2.delay_seconds <;> simp
  rw [h1]

theorem twofaFired_cons (d : PolicyDecision) (l : List PolicyDecision) :
    twofaFired (d :: l) =
      if d.allowed = false then false
      else if posDelay d.delay_seconds then false
      else if d.require_2fa then true
      else twofaFired l := rfl

theorem twofaFired_cons_iff (d : PolicyDecision) (l : List PolicyDecision) :
    twofaFired (d :: l) = true ↔
      (d.allowed = true ∧ posDelay d.delay_seconds = false ∧
        (d.require_2fa = true ∨ twofaFired l = true)) := by
  rw [twofaFired_cons]
  cases h1 : d.allowed
  · simp [h1]
  · cases h2 : posDelay d.delay_seconds
    · cases h3 : d.require_2fa <;> simp [h1, h2, h3]
    · simp [h1, h2]

theorem aggStep_actions_mem (st : AggState) (rd : Rule × PolicyDecision) (s : String) :
    s ∈ (aggStep st rd).all_actions ↔
      s ∈ st.all_actions ∨ s ∈ rd.2.required_actions ∨
      (s = "2fa_required" ∧ rd.2.allowed = true ∧ posDelay rd.2.delay_seconds = false ∧
        rd.2.require_2fa = true ∧ st.final_decision ≠ .BLOCK ∧
        st.final_decision ≠ .DELAY) := by
  rw [aggStep_actions]
  by_cases hc : rd.2.allowed = true ∧ posDelay rd.2.delay_seconds = false ∧
      rd.2.require_2fa = true ∧ st.final_decision ≠ .BLOCK ∧
      st.final_decision ≠ .DELAY
  · simp only [if_pos hc, List.mem_append, List.mem_singleton]
    tauto
  · simp only [if_neg hc, List.mem_append, List.not_mem_nil, or_false]
    tauto

theorem aggLoop_actions_mem (ds : List (Rule × PolicyDecision)) :
    ∀ (st : AggState) (s : String),
    s ∈ (aggLoop st ds).all_actions ↔
      s ∈ st.all_actions ∨ (∃ rd ∈ ds, s ∈ rd.2.required_actions) ∨
      (s = "2fa_required" ∧
        (st.final_decision ≠ .BLOCK ∧ st.final_decision ≠ .DELAY) ∧
        twofaFired (ds.map Prod.snd) = true) := by
  induction ds with
  | nil => intro st s; simp [aggLoop, twofaFired]
  | cons rd rest ih =>
    intro st s
    rw [aggLoop_cons, ih, aggStep_actions_mem, aggStep_not_BD]
    have hcons : (∃ rd' ∈ rd :: rest, s ∈ rd'.2.required_actions) ↔
        (s ∈ rd.2.required_actions ∨ ∃ rd' ∈ rest, s ∈ rd'.2.required_actions) := by
      constructor
      · rintro ⟨rd', hmem, hs⟩
        rcases List.mem_cons.mp hmem with rfl | hmem'
        · exact Or.inl hs
        · exact Or.inr ⟨rd', hmem', hs⟩
      · rintro (hs | ⟨rd', hmem', hs⟩)
        · exact ⟨rd, by simp, hs⟩
        · exact ⟨rd', by simp [hmem'], hs⟩
    rw [hcons, List.map_cons, twofaFired_cons_iff]
    constructor
    · rintro ((h | h | ⟨hq, ha, hpf, ht, hb, hd⟩) | h | ⟨hq, ⟨⟨hb, hd⟩, ha, hpf⟩, hf⟩)
      · exact Or.inl h
      · exact Or.inr (Or.inl (Or.inl h))
      · exact Or.inr (Or.inr ⟨hq, ⟨hb, hd⟩, ha, hpf, Or.inl ht⟩)
      · exact Or.inr (Or.inl (Or.inr h))
      · exact Or.inr (Or.inr ⟨hq, ⟨hb, hd⟩, ha, hpf, Or.inr hf⟩)
    · rintro (h | (h | h) | ⟨hq, ⟨hb, hd⟩, ha, hpf, (ht | hf)⟩)
      · exact Or.inl (Or.inl h)
      · exact Or.inl (Or.inr (Or.inl h))
      · exact Or.inr (Or.inl h)
      · exact Or.inl (Or.inr (Or.inr ⟨hq, ha, hpf, ht, hb, hd⟩))
      · exact Or.inr (Or.inr ⟨hq, ⟨⟨hb, hd⟩, ha, hpf⟩, hf⟩)

theorem twofaFired_of_soft (ds : List (Rule × PolicyDecision)) :
    (∀ rd ∈ ds, rd.2.allowed = true ∧ posDelay rd.2.delay_seconds = false) →
    (∃ rd ∈ ds, rd.2.require_2fa = true) →
    twofaFired (ds.map Prod.snd) = true := by
  induction ds with
  | nil => intro _ hex; simp at hex
  | cons rd rest ih =>
    intro hall hex
    have h := hall rd (by simp)
    rw [List.map_cons, twofaFired_cons_iff]
    refine ⟨h.1, h.2, ?_⟩
    by_cases hT : rd.2.require_2fa = true
    · exact Or.inl hT
    · rcases hex with ⟨q, hmem, hq⟩
      rcases List.mem_cons.mp hmem with rfl | hmem'
      · exact Or.inl hq
      · exact Or.inr (ih (fun p hp => hall p (by simp [hp])) ⟨q, hmem', hq⟩)

theorem classOf_restr_le_two (d : PolicyDecision) (hA : d.allowed = true)
    (hP : posDelay d.delay_seconds = false) : (classOf d).restr ≤ 2 := by
  unfold classOf
  split_ifs <;> simp_all [DecisionType.restr]

theorem classOf_restr_le_one (d : PolicyDecision) (hA : d.allowed = true)
    (hP : posDelay d.delay_seconds = false) (hT : d.require_2fa = false) :
    (classOf d).restr ≤ 1 := by
  unfold classOf
  split_ifs <;> simp_all [DecisionType.restr]

theorem classOf_eq_ALLOW_of (d : PolicyDecision) (hA : d.allowed = true)
    (hP : posDelay d.delay_seconds = false) (hT : d.require_2fa = false)
    (hW : d.warnings = []) : classOf d = .ALLOW := by
  unfold classOf
  split_ifs <;> simp_all

theorem aggregate_fields (ds : List (Rule × PolicyDecision)) :
    (aggregate_decisions ds).decision = (aggLoop aggInit ds).final_decision ∧
    (aggregate_decisions ds).blocking_rule = (aggLoop aggInit ds).blocking_rule ∧
    (aggregate_decisions ds).warnings = (aggLoop aggInit ds).all_warnings.dedup ∧
    (aggregate_decisions ds).required_actions = (aggLoop aggInit ds).all_actions.dedup ∧
    (aggregate_decisions ds).rules_evaluated = (aggLoop aggInit ds).rules_evaluated := by
  simp [aggregate_decisions, mkExecutionResult]

theorem aggregate_delay_field (ds : List (Rule × PolicyDecision))
    (h : ¬((aggLoop aggInit ds).final_decision = .DELAY ∧
        ((aggLoop aggInit ds).delay_seconds = none ∨
         (aggLoop aggInit ds).delay_seconds = some 0))) :
    (aggregate_decisions ds).delay_seconds = (aggLoop aggInit ds).delay_seconds := by
  simp only [aggregate_decisions, mkExecutionResult]
  simp [h]

/-! ## C3: the aggregation algorithm -/

/-- C3 (amended): aggregation of a priority-ordered decision list yields
BLOCK attributed to the first disallowing rule, if any; else DELAY with
the maximum delay over the rules that set a positive `delay_seconds`
(a zero delay, like `None`, counts as not set), attributed to the first
rule attaining that maximum; else REQUIRE_2FA when some rule requires
2FA, with "2fa_required" in `required_actions`; else WARN when some rule
warned; else ALLOW. Warnings are the deduplicated union over all rules'
decisions; `required_actions` is the deduplicated union plus
"2fa_required" exactly when a rule requiring 2FA (allowed, no positive
delay) is processed before any blocking or positively-delaying rule. -/
theorem aggregate_characterization (ds : List (Rule × PolicyDecision)) :
    (∀ rb : Rule × PolicyDecision,
        ds.find? (fun rd => !rd.2.allowed) = some rb →
        (aggregate_decisions ds).decision = .BLOCK ∧
        (aggregate_decisions ds).blocking_rule = some rb.1.name) ∧
    ((∀ rd ∈ ds, rd.2.allowed = true) → (∃ rd ∈ ds, delayerB rd = true) →
        (aggregate_decisions ds).decision = .DELAY ∧
        (aggregate_decisions ds).delay_seconds = some (maxDelay ds) ∧
        (aggregate_decisions ds).blocking_rule =
          (ds.find? (fun rd => delayerB rd && (dval rd == maxDelay ds))).map
            (fun rd => rd.1.name)) ∧
    ((∀ rd ∈ ds, rd.2.allowed = true ∧ posDelay rd.2.delay_seconds = false) →
        (∃ rd ∈ ds, rd.2.require_2fa = true) →
        (aggregate_decisions ds).decision = .REQUIRE_2FA ∧
        "2fa_required" ∈ (aggregate_decisions ds).required_actions) ∧
    ((∀ rd ∈ ds, rd.2.allowed = true ∧ posDelay rd.2.delay_seconds = false ∧
          rd.2.require_2fa = false) →
        (∃ rd ∈ ds, rd.2.warnings ≠ []) →
        (aggregate_decisions ds).decision = .WARN) ∧
    ((∀ rd ∈ ds, rd.2.allowed = true ∧ posDelay rd.2.delay_seconds = false ∧
          rd.2.require_2fa = false ∧ rd.2.warnings = []) →
        (aggregate_decisions ds).decision = .ALLOW) ∧
    (∀ s, s ∈ (aggregate_decisions ds).warnings ↔ ∃ rd ∈ ds, s ∈ rd.2.warnings) ∧
    (aggregate_decisions ds).warnings.Nodup ∧
    (∀ s, s ∈ (aggregate_decisions ds).required_actions ↔
        (∃ rd ∈ ds, s ∈ rd.2.required_actions) ∨
        (s = "2fa_required" ∧ twofaFired (ds.map Prod.snd) = true)) ∧
    (aggregate_decisions ds).required_actions.Nodup := by
  obtain ⟨hdec, hbr, hw, hact, hre⟩ := aggregate_fields ds
  have hinitB : aggInit.final_decision ≠ .BLOCK := by simp [aggInit]
  have hinitD : aggInit.final_decision ≠ .DELAY := by simp [aggInit]
  have hfold : (aggLoop aggInit ds).final_decision =
      ds.foldl (fun a rd => maxD a (classOf rd.2)) .ALLOW := aggLoop_final ds aggInit
  refine ⟨?_, ?_, ?_, ?_, ?_, ?_, ?_, ?_, ?_⟩
  · intro rb hf
    have h := aggLoop_first_blocker ds aggInit rb hinitB hf
    exact ⟨hdec.trans h.1, hbr.trans h.2⟩
  · intro hall hex
    have h := aggLoop_delay_entry ds aggInit hall hex hinitB hinitD rfl
    have hpos := maxDelay_pos ds hex
    refine ⟨hdec.trans h.1, ?_, hbr.trans h.2.2⟩
    have hd : (aggregate_decisions ds).delay_seconds =
        (aggLoop aggInit ds).delay_seconds := by
      apply aggregate_delay_field
      rintro ⟨_, hc | hc⟩
      · rw [h.2.1] at hc; exact Option.noConfusion hc
      · rw [h.2.1] at hc; injection hc with hc; omega
    rw [hd, h.2.1]
  · intro hall hex
    constructor
    · rw [hdec, hfold]
      have hub : (ds.foldl (fun a rd => maxD a (classOf rd.2)) .ALLOW).restr ≤ 2 := by
        rcases foldMaxD_choice ds .ALLOW with h | ⟨rd, hmem, h⟩
        · rw [h]; decide
        · rw [h]
          exact classOf_restr_le_two rd.2 (hall rd hmem).1 (hall rd hmem).2
      obtain ⟨rq, hqmem, hq⟩ := hex
      have hcl : classOf rq.2 = .REQUIRE_2FA :=
        (classOf_eq_REQUIRE_2FA rq.2).mpr ⟨(hall rq hqmem).1, (hall rq hqmem).2, hq⟩
      have hlb := foldMaxD_le_mem ds .ALLOW rq hqmem
      rw [hcl] at hlb
      exact eq_REQUIRE_2FA_of_restr _ hlb hub
    · rw [hact, List.mem_dedup, aggLoop_actions_mem]
      right; right
      exact ⟨rfl, ⟨hinitB, hinitD⟩, twofaFired_of_soft ds hall hex⟩
  · intro hall hex
    rw [hdec, hfold]
    have hub : (ds.foldl (fun a rd => maxD a (classOf rd.2)) .ALLOW).restr ≤ 1 := by
      rcases foldMaxD_choice ds .ALLOW with h | ⟨rd, hmem, h⟩
      · rw [h]; decide
      · rw [h]
        exact classOf_restr_le_one rd.2 (hall rd hmem).1 (hall rd hmem).2.1
          (hall rd hmem).2.2
    obtain ⟨rq, hqmem, hq⟩ := hex
    have hcl : classOf rq.2 = .WARN :=
      (classOf_eq_WARN rq.2).mpr
        ⟨(hall rq hqmem).1, (hall rq hqmem).2.1, (hall rq hqmem).2.2, hq⟩
    have hlb := foldMaxD_le_mem ds .ALLOW rq hqmem
    rw [hcl] at hlb
    exact eq_WARN_of_restr _ hlb hub
  · intro hall
    rw [hdec, hfold]
    have hub : (ds.foldl (fun a rd => maxD a (classOf rd.2)) .ALLOW).restr ≤ 0 := by
      rcases foldMaxD_choice ds .ALLOW with h | ⟨rd, hmem, h⟩
      · rw [h]; decide
      · rw [h]
        rw [classOf_eq_ALLOW_of rd.2 (hall rd hmem).1 (hall rd hmem).2.1
          (hall rd hmem).2.2.1 (hall rd hmem).2.2.2]
        decide
    exact eq_ALLOW_of_restr _ hub
  · intro s
    rw [hw, List.mem_dedup, aggLoop_warnings]
    have h0 : aggInit.all_warnings = ([] : List String) := rfl
    rw [h0, List.nil_append]
    exact mem_allWarningsOf s ds
  · rw [hw]; exact List.nodup_dedup _
  · intro s
    rw [hact, List.mem_dedup, aggLoop_actions_mem]
    have h0 : aggInit.all_actions = ([] : List String) := rfl
    rw [h0]
    simp only [List.not_mem_nil, false_or]
    constructor
    · rintro (h | ⟨hq, _, hf⟩)
      · exact Or.inl h
      · exact Or.inr ⟨hq, hf⟩
    · rintro (h | ⟨hq, hf⟩)
      · exact Or.inl h
      · exact Or.inr ⟨hq, ⟨hinitB, hinitD⟩, hf⟩
  · rw [hact]; exact List.nodup_dedup _

/-- Counterexample to C3 as stated: in `dsTwofaZeroDelay` the second
decision sets `delay_seconds` (to `0`), so the claim predicts a DELAY
result with `delay_seconds = 0` and `required_actions` equal to the
union of the rules' `required_actions` (empty); the code instead ignores
the zero delay, answers REQUIRE_2FA and adds "2fa_required". In
`dsTwofaBlock` the final decision is BLOCK yet `required_actions` still
gains "2fa_required", absent from every rule's decision, contradicting
the claim's deduplicated-union clause. -/
theorem aggregate_claim_counterexample :
    ((aggregate_decisions dsTwofaZeroDelay).decision = .REQUIRE_2FA ∧
     (aggregate_decisions dsTwofaZeroDelay).decision ≠ .DELAY ∧
     (aggregate_decisions dsTwofaZeroDelay).delay_seconds = none ∧
     (dsTwofaZeroDelay.map fun rd => rd.2.delay_seconds) = [none, some 0] ∧
     (aggregate_decisions dsTwofaZeroDelay).required_actions = ["2fa_required"] ∧
     allActionsOf dsTwofaZeroDelay = []) ∧
    ((aggregate_decisions dsTwofaBlock).decision = .BLOCK ∧
     (aggregate_decisions dsTwofaBlock).required_actions = ["2fa_required"] ∧
     allActionsOf dsTwofaBlock = []) := by
  decide

/-- Witness for C3 (amended), block case: the first blocking rule of
`dsTwofaBlock` is named in `blocking_rule`. -/
theorem aggregate_characterization_witness :
    (aggregate_decisions dsTwofaBlock).decision = .BLOCK ∧
    (aggregate_decisions dsTwofaBlock).blocking_rule = some "lo" :=
  (aggregate_characterization dsTwofaBlock).1
    (⟨"lo", 5, fun _ => none⟩, PolicyDecision.block "no") rfl

/-! ## C5: VelocityRule evaluation order -/

/-- C5: `VelocityRule.evaluate` applies its checks first-match-wins:
(1) per-transaction limit block, naming amount and limit; (2) daily
limit block, reporting the remaining allowance clamped to zero;
(3) delay of `delay_hours x 3600` seconds (`delay_hours` defaulting to
24) above the delay threshold; (4) 2FA above the 2FA threshold with
`required_actions = ["2fa_required"]`; (5) plain allow. Absent limits
behave as positive infinity (`exceedsLimit _ none` is false). -/
theorem velocity_evaluate_cases (cfg : VelocityConfig) (ctx : PolicyContext) :
    (∀ v : ℚ, exceedsLimit v none = false) ∧
    (∀ v l : ℚ, exceedsLimit v (some l) = true ↔ l < v) ∧
    (exceedsLimit ctx.transaction.value_usd cfg.max_per_tx_usd = true →
      velocity_evaluate cfg ctx = PolicyDecision.block
        ("Transaction amount " ++ fmtUsd ctx.transaction.value_usd ++
          " exceeds per-transaction limit of " ++ fmtLimit cfg.max_per_tx_usd)) ∧
    (exceedsLimit ctx.transaction.value_usd cfg.max_per_tx_usd = false →
      exceedsLimit (ctx.transaction.daily_outflow_usd + ctx.transaction.value_usd)
        cfg.max_daily_usd = true →
      velocity_evaluate cfg ctx = PolicyDecision.block
        ("Transaction would exceed daily limit. Remaining today: " ++
          fmtUsd (max (cfg.max_daily_usd.getD 0 - ctx.transaction.daily_outflow_usd) 0))) ∧
    (exceedsLimit ctx.transaction.value_usd cfg.max_per_tx_usd = false →
      exceedsLimit (ctx.transaction.daily_outflow_usd + ctx.transaction.value_usd)
        cfg.max_daily_usd = false →
      ∀ thr : ℚ, cfg.delay_hours_above_usd = some thr →
      thr < ctx.transaction.value_usd →
      velocity_evaluate cfg ctx = PolicyDecision.delay ((cfg.delay_hours.getD 24) * 3600)
        ("Transactions above " ++ fmtUsd thr ++ " require a " ++
          toString (cfg.delay_hours.getD 24) ++ "-hour delay")) ∧
    (exceedsLimit ctx.transaction.value_usd cfg.max_per_tx_usd = false →
      exceedsLimit (ctx.transaction.daily_outflow_usd + ctx.transaction.value_usd)
        cfg.max_daily_usd = false →
      (∀ thr : ℚ, cfg.delay_hours_above_usd = some thr →
        ¬ thr < ctx.transaction.value_usd) →
      ∀ t2 : ℚ, cfg.require_2fa_above_usd = some t2 →
      t2 < ctx.transaction.value_usd →
      velocity_evaluate cfg ctx = PolicyDecision.require_verification "2fa_required") ∧
    (exceedsLimit ctx.transaction.value_usd cfg.max_per_tx_usd = false →
      exceedsLimit (ctx.transaction.daily_outflow_usd + ctx.transaction.value_usd)
        cfg.max_daily_usd = false →
      (∀ thr : ℚ, cfg.delay_hours_above_usd = some thr →
        ¬ thr < ctx.transaction.value_usd) →
      (∀ t2 : ℚ, cfg.require_2fa_above_usd = some t2 →
        ¬ t2 < ctx.transaction.value_usd) →
      velocity_evaluate cfg ctx = PolicyDecision.allow []) := by
  refine ⟨fun v => rfl, fun v l => by simp [exceedsLimit], ?_, ?_, ?_, ?_, ?_⟩
  · intro h1
    simp [velocity_evaluate, h1]
  · intro h1 h2
    simp [velocity_evaluate, h1, h2]
  · intro h1 h2 thr hthr hlt
    simp [velocity_evaluate, h1, h2, hthr, hlt]
  · intro h1 h2 hnd t2 ht2 hlt
    cases hd : cfg.delay_hours_above_usd with
    | none => simp [velocity_evaluate, velocity_2fa_check, h1, h2, hd, ht2, hlt]
    | some thr =>
      have := hnd thr hd
      simp [velocity_evaluate, velocity_2fa_check, h1, h2, hd, this, ht2, hlt]
  · intro h1 h2 hnd hn2
    cases hd : cfg.delay_hours_above_usd with
    | none =>
      cases h2fa : cfg.require_2fa_above_usd with
      | none => simp [velocity_evaluate, velocity_2fa_check, h1, h2, hd, h2fa]
      | some t2 =>
        have := hn2 t2 h2fa
        simp [velocity_evaluate, velocity_2fa_check, h1, h2, hd, h2fa, this]
    | some thr =>
      have hthr := hnd thr hd
      cases h2fa : cfg.require_2fa_above_usd with
      | none => simp [velocity_evaluate, velocity_2fa_check, h1, h2, hd, hthr, h2fa]
      | some t2 =>
        have := hn2 t2 h2fa
        simp [velocity_evaluate, velocity_2fa_check, h1, h2, hd, hthr, h2fa, this]

/-- Witness for C5 at the spec's scenarios B (per-transaction block) and
D (2FA above threshold). -/
theorem velocity_evaluate_cases_witness :
    exceedsLimit (txSc 30000 10000).value_usd vcfgSpec.max_per_tx_usd = true ∧
    velocity_evaluate vcfgSpec (mkPolicyContext (txSc 30000 10000)) =
      PolicyDecision.block
        ("Transaction amount " ++ fmtUsd 30000 ++
          " exceeds per-transaction limit of " ++ fmtLimit (some 25000)) ∧
    velocity_evaluate vcfgNoDaily (mkPolicyContext (txSc 15000 10000)) =
      PolicyDecision.require_verification "2fa_required" :=
  ⟨by decide,
   (velocity_evaluate_cases vcfgSpec (mkPolicyContext (txSc 30000 10000))).2.2.1
     (by decide),
   (velocity_evaluate_cases vcfgNoDaily (mkPolicyContext (txSc 15000 10000))).2.2.2.2.2.1
     rfl rfl (by intro thr h; exact Option.noConfusion h)
     10000 rfl (by decide)⟩

/-! ## C6: WhitelistRule evaluation -/

/-- C6 (amended): `WhitelistRule.evaluate` allows unconditionally for a
whitelisted address; for a non-whitelisted new address it blocks in mode
"block_unknown", and otherwise attaches a warning naming the new address
and then: quarantines (`delay_seconds = hours x 3600`) when
`quarantine_hours_for_new` is set to a nonzero value (a zero value, like
an absent key, is skipped), else requires 2FA when `require_2fa_for_new`
is set, else plainly allows with the warning; a known non-whitelisted
address gets an advisory warning. -/
theorem whitelist_evaluate_cases (cfg : WhitelistConfig) (ctx : PolicyContext) :
    (ctx.transaction.address_in_whitelist = true →
      whitelist_evaluate cfg ctx = PolicyDecision.allow []) ∧
    (ctx.transaction.address_in_whitelist = false →
      ctx.transaction.is_new_address = true →
      cfg.mode.getD "warn_unknown" = "block_unknown" →
      whitelist_evaluate cfg ctx = PolicyDecision.block
        ("Address " ++ ctx.transaction.to_address.take 10 ++
          "... is not in your whitelist. Add it to whitelist first.")) ∧
    (ctx.transaction.address_in_whitelist = false →
      ctx.transaction.is_new_address = true →
      cfg.mode.getD "warn_unknown" ≠ "block_unknown" →
      ∀ q : Nat, cfg.quarantine_hours_for_new = some q → q ≠ 0 →
      whitelist_evaluate cfg ctx =
        { allowed := true, delay_seconds := some (q * 3600),
          warnings := ["This is a new address not in your whitelist: " ++
            ctx.transaction.to_address.take 10 ++ "..."],
          reason := "New address requires " ++ toString q ++ "h quarantine" }) ∧
    (ctx.transaction.address_in_whitelist = false →
      ctx.transaction.is_new_address = true →
      cfg.mode.getD "warn_unknown" ≠ "block_unknown" →
      (cfg.quarantine_hours_for_new = none ∨ cfg.quarantine_hours_for_new = some 0) →
      cfg.require_2fa_for_new = true →
      whitelist_evaluate cfg ctx =
        { allowed := true, require_2fa := true,
          warnings := ["This is a new address not in your whitelist: " ++
            ctx.transaction.to_address.take 10 ++ "..."],
          required_actions := ["2fa_required"],
          reason := "2FA required for new address" }) ∧
    (ctx.transaction.address_in_whitelist = false →
      ctx.transaction.is_new_address = true →
      cfg.mode.getD "warn_unknown" ≠ "block_unknown" →
      (cfg.quarantine_hours_for_new = none ∨ cfg.quarantine_hours_for_new = some 0) →
      cfg.require_2fa_for_new = false →
      whitelist_evaluate cfg ctx = PolicyDecision.allow
        ["This is a new address not in your whitelist: " ++
          ctx.transaction.to_address.take 10 ++ "..."]) ∧
    (ctx.transaction.address_in_whitelist = false →
      ctx.transaction.is_new_address = false →
      whitelist_evaluate cfg ctx = PolicyDecision.allow
        ["Consider adding frequently used addresses to your whitelist"]) := by
  refine ⟨?_, ?_, ?_, ?_, ?_, ?_⟩
  · intro hwl
    simp [whitelist_evaluate, hwl]
  · intro hwl hnew hmode
    simp [whitelist_evaluate, hwl, hnew, hmode]
  · intro hwl hnew hmode q hq hq0
    simp [whitelist_evaluate, hwl, hnew, hmode, hq, hq0]
  · intro hwl hnew hmode hq h2fa
    rcases hq with hq | hq <;>
      simp [whitelist_evaluate, whitelist_2fa_check, hwl, hnew, hmode, hq, h2fa]
  · intro hwl hnew hmode hq h2fa
    rcases hq with hq | hq <;>
      simp [whitelist_evaluate, whitelist_2fa_check, hwl, hnew, hmode, hq, h2fa,
        PolicyDecision.allow]
  · intro hwl hnew
    simp [whitelist_evaluate, hwl, hnew]

/-- Counterexample to C6 as stated: with `quarantine_hours_for_new` set
(to `0`) and `require_2fa_for_new` also configured, the claim predicts
the quarantine branch (`delay_seconds = 0 x 3600`, quarantine taking
precedence over 2FA); the code's truthiness test skips the zero
quarantine and takes the 2FA branch instead. -/
theorem whitelist_claim_counterexample :
    wcfgZero.quarantine_hours_for_new = some 0 ∧
    wcfgZero.require_2fa_for_new = true ∧
    txBase.address_in_whitelist = false ∧
    txBase.is_new_address = true ∧
    (whitelist_evaluate wcfgZero (mkPolicyContext txBase)).require_2fa = true ∧
    (whitelist_evaluate wcfgZero (mkPolicyContext txBase)).delay_seconds = none ∧
    (whitelist_evaluate wcfgZero (mkPolicyContext txBase)).delay_seconds
      ≠ some (0 * 3600) := by
  decide

/-- Witness for C6 (amended): a nonzero 24h quarantine yields an
86400-second delay (the spec's scenario F). -/
theorem whitelist_evaluate_cases_witness :
    wcfgQuar.quarantine_hours_for_new = some 24 ∧
    whitelist_evaluate wcfgQuar (mkPolicyContext txBase) =
      { allowed := true, delay_seconds := some 86400,
        warnings := ["This is a new address not in your whitelist: " ++
          txBase.to_address.take 10 ++ "..."],
        reason := "New address requires " ++ toString 24 ++ "h quarantine" } :=
  ⟨rfl,
   (whitelist_evaluate_cases wcfgQuar (mkPolicyContext txBase)).2.2.1
     rfl rfl (by decide) 24 rfl (by decide)⟩

/-! ## C7: TimelockRule evaluation -/

/-- C7: `TimelockRule.evaluate` blocks first when `block_weekends` is set
and the converted weekday is Saturday (5) or Sunday (6); otherwise, with
both hour bounds configured, it blocks exactly on the interval
`[start, finish)` when `start ≤ finish` and on the overnight wraparound
(`hour ≥ start` or `hour < finish`) when `start > finish`, the reason
reporting `finish − hour` hours remaining if `finish > hour`, else
`(24 − hour) + finish`; otherwise it allows. -/
theorem timelock_evaluate_cases (cfg : TimelockConfig) (ctx : PolicyContext) :
    ∀ h wd : Int, resolveLocal ctx.current_time (cfg.timezone.getD "UTC") = (h, wd) →
    wd ≤ 6 →
    ((cfg.block_weekends = true → (wd = 5 ∨ wd = 6) →
      timelock_evaluate cfg ctx = PolicyDecision.block
        "Transactions are blocked on weekends. Try again on Monday.") ∧
     (¬(cfg.block_weekends = true ∧ (wd = 5 ∨ wd = 6)) →
      ∀ s e : Int, cfg.block_start_hour = some s → cfg.block_end_hour = some e →
      (((timelock_evaluate cfg ctx).allowed = false) ↔
        (if s ≤ e then s ≤ h ∧ h < e else h ≥ s ∨ h < e)) ∧
      (is_in_blocked_period h s e = true →
        timelock_evaluate cfg ctx = PolicyDecision.block
          ("Transactions are blocked between " ++ toString s ++ ":00 and " ++
            toString e ++ ":00 (" ++ cfg.timezone.getD "UTC" ++
            "). Try again in ~" ++
            toString (if e > h then e - h else (24 - h) + e) ++ " hours.")) ∧
      (is_in_blocked_period h s e = false →
        timelock_evaluate cfg ctx = PolicyDecision.allow [])) ∧
     (¬(cfg.block_weekends = true ∧ (wd = 5 ∨ wd = 6)) →
      (cfg.block_start_hour = none ∨ cfg.block_end_hour = none) →
      timelock_evaluate cfg ctx = PolicyDecision.allow [])) := by
  intro h wd hres hwd
  have hnotwk : ∀ (hyp : ¬(cfg.block_weekends = true ∧ (wd = 5 ∨ wd = 6))),
      ¬(cfg.block_weekends = true ∧ 5 ≤ wd) := by
    intro hyp ⟨hbw, hge⟩
    exact hyp ⟨hbw, by omega⟩
  refine ⟨?_, ?_, ?_⟩
  · intro hbw hwe
    have hge : (5 : Int) ≤ wd := by omega
    simp [timelock_evaluate, hres, hbw, hge]
  · intro hyp s e hs he
    have hng := hnotwk hyp
    have hcond : ¬(cfg.block_weekends = true ∧ 5 ≤ (h, wd).2) := hng
    constructor
    · rw [show ((timelock_evaluate cfg ctx).allowed = false ↔
          is_in_blocked_period h s e = true) from ?_]
      · unfold is_in_blocked_period
        split_ifs with hse
        · simp [hse]
        · simp
      · by_cases hb : is_in_blocked_period h s e = true
        · simp [timelock_evaluate, hres, hcond, hs, he, hb, PolicyDecision.block]
        · simp [timelock_evaluate, hres, hcond, hs, he, hb, PolicyDecision.allow]
    · constructor
      · intro hb
        simp [timelock_evaluate, hres, hcond, hs, he, hb]
      · intro hb
        simp [timelock_evaluate, hres, hcond, hs, he, hb]
  · intro hyp hnone
    have hng := hnotwk hyp
    have hcond : ¬(cfg.block_weekends = true ∧ 5 ≤ (h, wd).2) := hng
    rcases hnone with hn | hn
    · simp [timelock_evaluate, hres, hcond, hn]
    · cases hsx : cfg.block_start_hour with
      | none => simp [timelock_evaluate, hres, hcond, hsx]
      | some s => simp [timelock_evaluate, hres, hcond, hsx, hn]

/-- Witness for C7: under the 23:00-06:00 window at 02:00 on a Wednesday
the rule blocks and reports four hours remaining; at 12:00 it allows. -/
theorem timelock_evaluate_cases_witness :
    resolveLocal dtNight (tcfgNight.timezone.getD "UTC") = (2, 2) ∧
    is_in_blocked_period 2 23 6 = true ∧
    timelock_evaluate tcfgNight
        (mkPolicyContext { txBase with current_time := dtNight }) =
      PolicyDecision.block
        ("Transactions are blocked between " ++ toString (23 : Int) ++
          ":00 and " ++ toString (6 : Int) ++ ":00 (" ++ "UTC" ++
          "). Try again in ~" ++ toString (4 : Int) ++ " hours.") ∧
    timelock_evaluate tcfgNight (mkPolicyContext txBase) =
      PolicyDecision.allow [] :=
  ⟨rfl, by decide,
   by
    have hmain := (timelock_evaluate_cases tcfgNight
      (mkPolicyContext { txBase with current_time := dtNight })
      2 2 rfl (by decide)).2.1 (by decide) 23 6 rfl rfl
    have := hmain.2.1 (by decide)
    simpa using this,
   by
    have hmain := (timelock_evaluate_cases tcfgNight
      (mkPolicyContext txBase) 12 2 rfl (by decide)).2.1 (by decide) 23 6 rfl rfl
    exact hmain.2.2 (by decide)⟩

/-! ## C4: rule loading, stable priority sort, audit trail -/

theorem runRules_ok (ctx : PolicyContext) (rules : List Rule)
    (hall : ∀ r ∈ rules, (r.evaluate ctx).isSome = true) :
    ∃ ds, runRules ctx rules = .ok ds ∧ ds.map Prod.fst = rules := by
  induction rules with
  | nil => exact ⟨[], rfl, rfl⟩
  | cons r rest ih =>
    obtain ⟨d, hd⟩ := Option.isSome_iff_exists.mp (hall r (by simp))
    obtain ⟨ds, hok, hfst⟩ := ih (fun q hq => hall q (by simp [hq]))
    exact ⟨(r, d) :: ds, by simp [runRules, hd, hok], by simp [hfst]⟩

theorem execute_rules_evaluated (rules : List Rule) (tx : TransactionContext)
    (hd : tx.duress_mode_active = false)
    (hall : ∀ r ∈ rules, (r.evaluate (mkPolicyContext tx)).isSome = true) :
    (execute rules tx).rules_evaluated = rules.map Rule.name := by
  obtain ⟨ds, hok, hfst⟩ := runRules_ok (mkPolicyContext tx) rules hall
  have hexec : execute rules tx = aggregate_decisions ds := by
    simp [execute, hd, hok]
  rw [hexec, (aggregate_fields ds).2.2.2.2, aggLoop_rules_evaluated]
  have h0 : aggInit.rules_evaluated = ([] : List String) := rfl
  rw [h0, List.nil_append, ← hfst, List.map_map]
  rfl

/-- Rules produced by the evaluator's registry never raise. -/
theorem evaluator_rules_total (policies : List (PolicyRecord RuleConfig)) :
    ∀ r ∈ load_rules_from_config evaluatorRegistry policies, ∀ ctx : PolicyContext,
      (r.evaluate ctx).isSome = true := by
  intro r hr ctx
  rw [load_rules_from_config, List.mem_mergeSort] at hr
  obtain ⟨p, _, hinst⟩ := List.mem_filterMap.mp hr
  unfold instantiateRecord at hinst
  by_cases ha : p.is_active = false
  · simp [ha] at hinst
  · rw [if_neg ha] at hinst
    cases hrt : p.rule_type with
    | none => rw [hrt] at hinst; exact Option.noConfusion hinst
    | some rt =>
      simp only [hrt] at hinst
      cases hreg : evaluatorRegistry rt with
      | none =>
        simp only [hreg] at hinst
        exact Option.noConfusion hinst
      | some cls =>
        simp only [hreg] at hinst
        injection hinst with hcls
        subst hcls
        unfold evaluatorRegistry at hreg
        split_ifs at hreg <;> first
          | exact Option.noConfusion hreg
          | (injection hreg with hcls2; rw [← hcls2]; rfl)

/-- C4: `load_rules_from_config` skips inactive records and unregistered
rule types, instantiates the registered class with the record's name,
config and priority, and sorts the result by priority descending with a
stable sort (ties keep original relative order: for every priority the
filtered sublists agree); a non-duress, non-raising `execute` then
reports `rules_evaluated` as exactly the loaded rule names in order. -/
theorem load_rules_spec {Cfg : Type}
    (registry : String → Option (String → Cfg → Int → Rule))
    (policies : List (PolicyRecord Cfg)) (tx : TransactionContext) :
    (∀ p : PolicyRecord Cfg, p.is_active = false →
      instantiateRecord registry p = none) ∧
    (∀ (p : PolicyRecord Cfg) (rt : String), p.rule_type = some rt →
      registry rt = none → instantiateRecord registry p = none) ∧
    (∀ (p : PolicyRecord Cfg) (rt : String) (cls : String → Cfg → Int → Rule),
      p.is_active = true → p.rule_type = some rt → registry rt = some cls →
      instantiateRecord registry p =
        some (cls (p.name.getD rt) p.config p.priority)) ∧
    List.Pairwise (fun a b => b.priority ≤ a.priority)
      (load_rules_from_config registry policies) ∧
    (load_rules_from_config registry policies).Perm
      (policies.filterMap (instantiateRecord registry)) ∧
    (∀ pr : Int,
      (load_rules_from_config registry policies).filter (fun r => r.priority == pr) =
      (policies.filterMap (instantiateRecord registry)).filter
        (fun r => r.priority == pr)) ∧
    (tx.duress_mode_active = false →
      (∀ r ∈ load_rules_from_config registry policies,
        (r.evaluate (mkPolicyContext tx)).isSome = true) →
      (execute (load_rules_from_config registry policies) tx).rules_evaluated =
        (load_rules_from_config registry policies).map Rule.name) := by
  have htrans : ∀ (a b c : Rule), decide (b.priority ≤ a.priority) = true →
      decide (c.priority ≤ b.priority) = true →
      decide (c.priority ≤ a.priority) = true := by
    intro a b c h1 h2
    simp at h1 h2 ⊢
    omega
  have htotal : ∀ (a b : Rule),
      (decide (b.priority ≤ a.priority) || decide (a.priority ≤ b.priority)) = true := by
    intro a b
    simp
    omega
  refine ⟨?_, ?_, ?_, ?_, List.mergeSort_perm _ _, ?_, ?_⟩
  · intro p h
    simp [instantiateRecord, h]
  · intro p rt hrt hreg
    by_cases ha : p.is_active = false
    · simp [instantiateRecord, ha]
    · simp [instantiateRecord, ha, hrt, hreg]
  · intro p rt cls ha hrt hreg
    simp [instantiateRecord, ha, hrt, hreg]
  · have hs := List.sorted_mergeSort htrans htotal
      (policies.filterMap (instantiateRecord registry))
    exact hs.imp (fun h => by simpa using h)
  · intro pr
    have hsub1 : List.Sublist
        ((policies.filterMap (instantiateRecord registry)).filter
          (fun r => r.priority == pr))
        (policies.filterMap (instantiateRecord registry)) :=
      List.filter_sublist _
    have hpw : ((policies.filterMap (instantiateRecord registry)).filter
        (fun r => r.priority == pr)).Pairwise
        (fun a b => decide (b.priority ≤ a.priority) = true) := by
      apply List.pairwise_of_forall_mem_list
      intro a ha b hb
      have ha2 := (List.mem_filter.mp ha).2
      have hb2 := (List.mem_filter.mp hb).2
      simp at ha2 hb2 ⊢
      omega
    have hsub2 := List.sublist_mergeSort htrans htotal hpw hsub1
    have hsub3 := hsub2.filter (fun r => r.priority == pr)
    rw [List.filter_eq_self.mpr (fun a ha => (List.mem_filter.mp ha).2)] at hsub3
    have hperm := (List.mergeSort_perm
      (policies.filterMap (instantiateRecord registry))
      (fun a b => decide (b.priority ≤ a.priority))).filter (fun r => r.priority == pr)
    exact (hsub3.eq_of_length hperm.length_eq.symm).symm
  · intro hd hall
    exact execute_rules_evaluated _ tx hd hall

/-- Witness for C4: loading a four-record configuration (one inactive,
one unknown type) and executing against a concrete transaction reports
the loaded names in order. -/
theorem load_rules_spec_witness :
    txBase.duress_mode_active = false ∧
    (execute (load_rules_from_config evaluatorRegistry policiesW) txBase).rules_evaluated
      = (load_rules_from_config evaluatorRegistry policiesW).map Rule.name :=
  ⟨rfl, (load_rules_spec evaluatorRegistry policiesW txBase).2.2.2.2.2.2 rfl
    (fun r hr => evaluator_rules_total policiesW r hr (mkPolicyContext txBase))⟩

/-! ## C8: monotonicity in the transaction value -/

theorem exceedsLimit_mono (v v2 : ℚ) (h : v ≤ v2) (l : Option ℚ) :
    exceedsLimit v l = true → exceedsLimit v2 l = true := by
  cases l with
  | none => simp [exceedsLimit]
  | some x =>
    simp only [exceedsLimit, decide_eq_true_eq]
    intro hlt
    exact lt_of_lt_of_le hlt h

theorem thrCond_mono (v v2 : ℚ) (h : v ≤ v2) (o : Option ℚ) :
    o.elim false (fun thr => decide (thr < v)) = true →
    o.elim false (fun thr => decide (thr < v2)) = true := by
  cases o with
  | none => simp
  | some x =>
    simp only [Option.elim, decide_eq_true_eq]
    intro hlt
    exact lt_of_lt_of_le hlt h

/-- Restrictiveness class of a velocity evaluation, as a cascade over the
four threshold conditions (needs a nonzero configured `delay_hours` so
the delay decision keeps a positive `delay_seconds`). -/
theorem velocity_classOf (cfg : VelocityConfig) (tx : TransactionContext)
    (hdh : cfg.delay_hours.getD 24 ≠ 0) :
    classOf (velocity_evaluate cfg (mkPolicyContext tx)) =
      if exceedsLimit tx.value_usd cfg.max_per_tx_usd then .BLOCK
      else if exceedsLimit (tx.daily_outflow_usd + tx.value_usd) cfg.max_daily_usd
        then .BLOCK
      else if cfg.delay_hours_above_usd.elim false (fun thr => decide (thr < tx.value_usd))
        then .DELAY
      else if cfg.require_2fa_above_usd.elim false (fun t2 => decide (t2 < tx.value_usd))
        then .REQUIRE_2FA
      else .ALLOW := by
  by_cases h1 : exceedsLimit tx.value_usd cfg.max_per_tx_usd = true
  · simp [velocity_evaluate, mkPolicyContext, h1, classOf, PolicyDecision.block]
  · have h1' : exceedsLimit tx.value_usd cfg.max_per_tx_usd = false := by
      revert h1; cases exceedsLimit tx.value_usd cfg.max_per_tx_usd <;> simp
    by_cases h2 : exceedsLimit (tx.daily_outflow_usd + tx.value_usd)
        cfg.max_daily_usd = true
    · simp [velocity_evaluate, mkPolicyContext, h1', h2, classOf, PolicyDecision.block]
    · have h2' : exceedsLimit (tx.daily_outflow_usd + tx.value_usd)
          cfg.max_daily_usd = false := by
        revert h2
        cases exceedsLimit (tx.daily_outflow_usd + tx.value_usd) cfg.max_daily_usd <;> simp
      cases hdel : cfg.delay_hours_above_usd with
      | some thr =>
        by_cases h3 : thr < tx.value_usd
        · have hnz : cfg.delay_hours.getD 24 * 3600 ≠ 0 := Nat.mul_ne_zero hdh (by decide)
          simp [velocity_evaluate, mkPolicyContext, h1', h2', hdel, h3, classOf, PolicyDecision.delay,
            posDelay, hnz]
        · cases h2fa : cfg.require_2fa_above_usd with
          | some t2 =>
            by_cases h4 : t2 < tx.value_usd
            · simp [velocity_evaluate, mkPolicyContext, velocity_2fa_check, h1', h2', hdel, h3, h2fa, h4,
                classOf, PolicyDecision.require_verification, posDelay]
            · simp [velocity_evaluate, mkPolicyContext, velocity_2fa_check, h1', h2', hdel, h3, h2fa, h4,
                classOf, PolicyDecision.allow, posDelay]
          | none =>
            simp [velocity_evaluate, mkPolicyContext, velocity_2fa_check, h1', h2', hdel, h3, h2fa,
              classOf, PolicyDecision.allow, posDelay]
      | none =>
        cases h2fa : cfg.require_2fa_above_usd with
        | some t2 =>
          by_cases h4 : t2 < tx.value_usd
          · simp [velocity_evaluate, mkPolicyContext, velocity_2fa_check, h1', h2', hdel, h2fa, h4,
              classOf, PolicyDecision.require_verification, posDelay]
          · simp [velocity_evaluate, mkPolicyContext, velocity_2fa_check, h1', h2', hdel, h2fa, h4,
              classOf, PolicyDecision.allow, posDelay]
        | none =>
          simp [velocity_evaluate, mkPolicyContext, velocity_2fa_check, h1', h2', hdel, h2fa,
            classOf, PolicyDecision.allow, posDelay]

theorem restr_cascade_mono (c1 c2 c3 c4 d1 d2 d3 d4 : Bool)
    (h1 : c1 = true → d1 = true) (h2 : c2 = true → d2 = true)
    (h3 : c3 = true → d3 = true) (h4 : c4 = true → d4 = true) :
    (if c1 then DecisionType.BLOCK else if c2 then .BLOCK else if c3 then .DELAY
      else if c4 then .REQUIRE_2FA else .ALLOW).restr ≤
    (if d1 then DecisionType.BLOCK else if d2 then .BLOCK else if d3 then .DELAY
      else if d4 then .REQUIRE_2FA else .ALLOW).restr := by
  revert h1 h2 h3 h4
  revert c1 c2 c3 c4 d1 d2 d3 d4
  decide

theorem velocity_class_mono (cfg : VelocityConfig) (tx : TransactionContext) (v2 : ℚ)
    (hv : tx.value_usd ≤ v2) (hdh : cfg.delay_hours.getD 24 ≠ 0) :
    (classOf (velocity_evaluate cfg (mkPolicyContext tx))).restr ≤
    (classOf (velocity_evaluate cfg (mkPolicyContext { tx with value_usd := v2 }))).restr := by
  rw [velocity_classOf cfg tx hdh, velocity_classOf cfg _ hdh]
  apply restr_cascade_mono
  · exact exceedsLimit_mono tx.value_usd v2 hv cfg.max_per_tx_usd
  · exact exceedsLimit_mono (tx.daily_outflow_usd + tx.value_usd)
      (tx.daily_outflow_usd + v2) (by exact add_le_add_left hv _) cfg.max_daily_usd
  · exact thrCond_mono tx.value_usd v2 hv cfg.delay_hours_above_usd
  · exact thrCond_mono tx.value_usd v2 hv cfg.require_2fa_above_usd

theorem whitelist_value_invariant (cfg : WhitelistConfig) (tx : TransactionContext)
    (v2 : ℚ) :
    whitelist_evaluate cfg (mkPolicyContext { tx with value_usd := v2 }) =
    whitelist_evaluate cfg (mkPolicyContext tx) := rfl

theorem timelock_value_invariant (cfg : TimelockConfig) (tx : TransactionContext)
    (v2 : ℚ) :
    timelock_evaluate cfg (mkPolicyContext { tx with value_usd := v2 }) =
    timelock_evaluate cfg (mkPolicyContext tx) := rfl

theorem runRules_builtin (rules : List BuiltinRule) (ctx : PolicyContext) :
    runRules ctx (rules.map BuiltinRule.toRule) =
      .ok (rules.map (fun b => (b.toRule, evalByKind b.kind ctx))) := by
  induction rules with
  | nil => rfl
  | cons b rest ih => simp [runRules, BuiltinRule.toRule, ih]

theorem execute_builtin_final (rules : List BuiltinRule) (tx : TransactionContext)
    (hd : tx.duress_mode_active = false) :
    (execute (rules.map BuiltinRule.toRule) tx).decision =
      rules.foldl
        (fun a b => maxD a (classOf (evalByKind b.kind (mkPolicyContext tx)))) .ALLOW := by
  have hexec : execute (rules.map BuiltinRule.toRule) tx =
      aggregate_decisions
        (rules.map (fun b => (b.toRule, evalByKind b.kind (mkPolicyContext tx)))) := by
    simp [execute, hd, runRules_builtin]
  rw [hexec, (aggregate_fields _).1, aggLoop_final, List.foldl_map]
  rfl

theorem maxD_mono (a b c d : DecisionType) (h1 : a.restr ≤ c.restr)
    (h2 : b.restr ≤ d.restr) : (maxD a b).restr ≤ (maxD c d).restr := by
  revert h1 h2
  revert a b c d
  decide

theorem foldMaxD_mono_pointwise (rules : List BuiltinRule)
    (f g : BuiltinRule → DecisionType)
    (hfg : ∀ b ∈ rules, (f b).restr ≤ (g b).restr) :
    ∀ a c : DecisionType, a.restr ≤ c.restr →
      (rules.foldl (fun x b => maxD x (f b)) a).restr ≤
      (rules.foldl (fun x b => maxD x (g b)) c).restr := by
  induction rules with
  | nil => intro a c h; exact h
  | cons b rest ih =>
    intro a c h
    simp only [List.foldl_cons]
    exact ih (fun q hq => hfg q (by simp [hq])) _ _
      (maxD_mono a (f b) c (g b) h (hfg b (by simp)))

/-- C8 (amended): for a fixed set of built-in rule instances in which
every velocity rule's configured `delay_hours` (default 24) is nonzero,
raising `value_usd` (all else equal) never makes the decision of
`execute` strictly less restrictive under the order
ALLOW < WARN < REQUIRE_2FA < DELAY < BLOCK. A velocity rule configured
with `delay_hours = 0` breaks this: its delay decision carries
`delay_seconds = 0`, which aggregation ignores. -/
theorem execute_value_monotone (rules : List BuiltinRule) (tx : TransactionContext)
    (v2 : ℚ) (hv : tx.value_usd ≤ v2)
    (hdh : ∀ b ∈ rules, delayHoursPositive b.kind) :
    ((execute (rules.map BuiltinRule.toRule) tx).decision).restr ≤
    ((execute (rules.map BuiltinRule.toRule)
        { tx with value_usd := v2 }).decision).restr := by
  by_cases hdur : tx.duress_mode_active = true
  · have hdur2 : ({ tx with value_usd := v2 } : TransactionContext).duress_mode_active
        = true := hdur
    rw [duress_short_circuit _ _ hdur, duress_short_circuit _ _ hdur2]
  · have hd : tx.duress_mode_active = false := by
      revert hdur; cases tx.duress_mode_active <;> simp
    have hd2 : ({ tx with value_usd := v2 } : TransactionContext).duress_mode_active
        = false := hd
    rw [execute_builtin_final rules tx hd, execute_builtin_final rules _ hd2]
    apply foldMaxD_mono_pointwise rules _ _ ?_ _ _ (Nat.le_refl _)
    intro b hb
    cases hk : b.kind with
    | velocity c =>
      have hpos : c.delay_hours.getD 24 ≠ 0 := by
        have hcond := hdh b hb
        rw [hk] at hcond
        exact hcond
      simpa [evalByKind] using velocity_class_mono c tx v2 hv hpos
    | whitelist c =>
      simp [evalByKind, whitelist_value_invariant]
    | timelock c =>
      simp [evalByKind, timelock_value_invariant]

/-- Counterexample to C8 as stated: with a velocity rule configured with
`require_2fa_above_usd = 50`, `delay_hours_above_usd = 100` and
`delay_hours = 0`, raising the amount from 60 to 200 relaxes the
decision from REQUIRE_2FA to ALLOW (the zero-second delay decision is
ignored by aggregation), strictly less restrictive on the claimed
order. -/
theorem execute_value_monotone_counterexample :
    txBase.value_usd ≤ (200 : ℚ) ∧
    (execute ([ruleZeroDelay].map BuiltinRule.toRule) txBase).decision
      = .REQUIRE_2FA ∧
    (execute ([ruleZeroDelay].map BuiltinRule.toRule)
        { txBase with value_usd := 200 }).decision = .ALLOW ∧
    DecisionType.restr .ALLOW < DecisionType.restr .REQUIRE_2FA := by
  refine ⟨by decide, by decide, by decide, by decide⟩

/-- Witness for C8 (amended): with the default 24h delay hours, raising
the amount from 60 to 200 moves the decision from REQUIRE_2FA to DELAY,
which is allowed by the order. -/
theorem execute_value_monotone_witness :
    txBase.value_usd ≤ (200 : ℚ) ∧
    delayHoursPositive ruleDelayDefault.kind ∧
    ((execute ([ruleDelayDefault].map BuiltinRule.toRule) txBase).decision).restr ≤
    ((execute ([ruleDelayDefault].map BuiltinRule.toRule)
        { txBase with value_usd := 200 }).decision).restr :=
  ⟨by decide, (by decide : (24 : Nat) ≠ 0),
   execute_value_monotone [ruleDelayDefault] txBase 200 (by decide)
     (by
       intro b hb
       simp only [List.mem_singleton] at hb
       subst hb
       exact (by decide : (24 : Nat) ≠ 0))⟩

end WhaleWallet
